import Mathlib

/-
Verification development for the juissy client (src/lib/index.js).

The source is a JSON:API client whose core is the lazy pagination engine
built by `paginate` (a mutable closure state: `buffer`, `total`, `link`,
`inFlight`, `collectionRequests`, `limit`, `count`) together with the
consumption driver returned by `toConsumer`.  We embed that core as a
small-step interpreter over an explicit state record.

Modelling conventions:
  - URLs are natural numbers: URL `u` denotes the u-th page of one link
    chain; the document fetched at `u` carries `links.next` pointing to
    `u + 1` when `u + 1` is still inside the chain, and `false` otherwise.
  - A network is a page chain plus an outcome per URL: `ok` (the document
    has `data` and parses), `transportErr` (the fetch promise rejects:
    network failure or the non-ok branch of `fetchDocument`, which throws
    a ReferenceError on the undefined `reject`), or `docErr` (the fetch
    resolves but `documentData` throws inside `doRequest`'s `then`
    callback, after the in-flight entry was deleted and `link` updated).
  - JS promise timing is explicit: a fetch issued by `doRequest` settles
    either when a pull awaits the queued promise (demand-driven) or
    earlier, at the microtask boundary before a pull, when the schedule
    function says so.  `lazySched` is the all-demand-driven schedule.
  - The driver `run` performs the recursion `f(cursor.next().value)` of
    `consume` with explicit fuel; the generator of `paginate` is inlined
    as `pullStep` (one loop iteration: condition check, cap check,
    `advance`, `count++`/`buffer.shift()`).
-/

set_option linter.unusedVariables false

/-- Outcome of the network fetch for one URL. -/
inductive Outcome : Type where
  | ok
  | transportErr
  | docErr
deriving DecidableEq, Repr

/-- A network: the page chain of one collection, and the fetch outcome per URL. -/
structure Net (R : Type) where
  chain : List (List R)
  outcome : Nat → Outcome

/-- Observable events of one pagination-engine run. -/
inductive Ev : Type where
  | issue (u : Nat)
  | completeOk (u : Nat)
  | completeFail (u : Nat)
  | deliver
deriving DecidableEq, Repr

/-- The mutable closure state of one `paginate` instance.  `reqs` is the
`collectionRequests` array; an entry `(u, none)` is a still-pending promise
for URL `u`, `(u, some true)` a fulfilled one, `(u, some false)` a rejected
one.  `trace` records issued fetches, fetch completions and deliveries. -/
structure Engine (R : Type) where
  buffer : List R
  total : Nat
  link : Option Nat
  inFlight : List Nat
  reqs : List (Nat × Option Bool)
  limit : Int
  count : Nat
  trace : List Ev
deriving DecidableEq, Repr

/-- JS `Set.add`: no duplicate entries. -/
def setAdd (s : List Nat) (u : Nat) : List Nat :=
  if u ∈ s then s else s ++ [u]

/-- The synchronous part of `doRequest`: mark the URL in flight, push the
promise of the fetch onto `collectionRequests`, start the fetch. -/
def doRequest {R : Type} (s : Engine R) (u : Nat) : Engine R :=
  { s with inFlight := setAdd s.inFlight u,
           reqs := s.reqs ++ [(u, none)],
           trace := s.trace ++ [Ev.issue u] }

/-- The `next` link carried by the document at URL `u`. -/
def nextLinkOf {R : Type} (net : Net R) (u : Nat) : Option Nat :=
  if u + 1 < net.chain.length then some (u + 1) else none

/-- State effects of the network response for URL `u` (the body of
`doRequest`'s `then` callback).  On `ok`: delete the in-flight entry,
replace `link` by the document's `next`, append the resources, bump
`total`.  On `transportErr`: the `then` callback never runs, so nothing is
cleaned up — in particular the in-flight entry stays.  On `docErr`: the
callback runs until `documentData` throws, i.e. after the in-flight delete
and the `link` update but before the buffer append. -/
def completeEffects {R : Type} (net : Net R) (s : Engine R) (u : Nat) : Engine R :=
  match net.outcome u with
  | Outcome.ok =>
      { s with inFlight := s.inFlight.erase u,
               link := nextLinkOf net u,
               buffer := s.buffer ++ net.chain.getD u [],
               total := s.total + (net.chain.getD u []).length,
               trace := s.trace ++ [Ev.completeOk u] }
  | Outcome.transportErr =>
      { s with trace := s.trace ++ [Ev.completeFail u] }
  | Outcome.docErr =>
      { s with inFlight := s.inFlight.erase u,
               link := nextLinkOf net u,
               trace := s.trace ++ [Ev.completeFail u] }

/-- Mark the first still-pending entry for URL `u` as settled. -/
def settleFirst : List (Nat × Option Bool) → Nat → Bool → List (Nat × Option Bool)
  | [], _, _ => []
  | (v, st) :: rest, u, b =>
      if v = u ∧ st = none then (v, some b) :: rest
      else (v, st) :: settleFirst rest u b

/-- A fetch response arriving at a microtask boundary: settle the (unique)
pending request and apply the response effects. -/
def eagerComplete {R : Type} (net : Net R) (s : Engine R) : Engine R :=
  match s.reqs.find? (fun p => decide (p.2 = (none : Option Bool))) with
  | none => s
  | some p =>
      completeEffects net
        { s with reqs := settleFirst s.reqs p.1 (decide (net.outcome p.1 = Outcome.ok)) } p.1

/-- The issuance guard inside `advance` (and at the tail of `paginate`):
`link && !inFlight.has(link) && (limit === -1 || total < limit)`. -/
def maybeIssue {R : Type} (s : Engine R) : Engine R :=
  match s.link with
  | some u =>
      if u ∉ s.inFlight ∧ (s.limit = -1 ∨ (s.total : Int) < s.limit) then doRequest s u else s
  | none => s

/-- `advance`: issue a fetch if allowed, then either resolve with the
buffer directly (buffer non-empty or no queued request) or shift the first
queued request and await it.  The boolean is `true` when the awaited
promise rejects, which fails the pull.  Awaiting a still-pending promise
forces its settlement here (demand-driven completion). -/
def advance {R : Type} (net : Net R) (s : Engine R) : Engine R × Bool :=
  let s1 := maybeIssue s
  if s1.buffer.isEmpty then
    match s1.reqs with
    | [] => (s1, false)
    | (u, some true) :: rest => ({ s1 with reqs := rest }, false)
    | (u, some false) :: rest => ({ s1 with reqs := rest }, true)
    | (u, none) :: rest =>
        (completeEffects net { s1 with reqs := rest } u,
         decide (net.outcome u ≠ Outcome.ok))
  else (s1, false)

/-- The generator's `canContinue`: `buffer.length || inFlight.size || link`. -/
def canContinue {R : Type} (s : Engine R) : Bool :=
  !s.buffer.isEmpty || !s.inFlight.isEmpty || s.link.isSome

/-- Result of one driver iteration. -/
inductive StepRes (R : Type) where
  | next (s : Engine R) (r : Option R)
  | stopFalse (s : Engine R)
  | stopMore (s : Engine R)
  | failedStep (s : Engine R)
deriving DecidableEq, Repr

/-- One iteration of `consume`'s recursion `f(cursor.next().value)`:
optionally a pending fetch settles first (microtask boundary), then the
generator checks its `while` condition and the cap, runs `advance`, and on
success does `count++; buffer.shift()`, yielding the shifted resource (or
`null` on an empty buffer, which the driver filters out). -/
def pullStep {R : Type} (net : Net R) (eager : Bool) (s : Engine R) : StepRes R :=
  let s0 := if eager then eagerComplete net s else s
  if canContinue s0 then
    if s0.limit = -1 ∨ (s0.count : Int) < s0.limit then
      let a := advance net s0
      if a.2 then StepRes.failedStep a.1
      else
        StepRes.next
          { a.1 with buffer := a.1.buffer.tail,
                     count := a.1.count + 1,
                     trace := a.1.trace ++
                       (match a.1.buffer.head? with
                        | some _ => [Ev.deliver]
                        | none => []) }
          a.1.buffer.head?
    else StepRes.stopMore s0
  else StepRes.stopFalse s0

/-- Result of a whole `consume` call: `done s delivered more` resolves with
`false` (`more = false`) or with the sequence's `addMore` (`more = true`);
`failedRun` is a rejected `consume`. -/
inductive RunResult (R : Type) where
  | done (s : Engine R) (delivered : List R) (more : Bool)
  | failedRun (s : Engine R) (delivered : List R)
  | outOfFuel (s : Engine R) (delivered : List R)
deriving DecidableEq, Repr

/-- The driver loop of `consume` with explicit fuel; `k` indexes the
schedule of early fetch completions.  Resources shifted out of a non-empty
buffer are accumulated as the delivered sequence (a `null` pull is
filtered out, as in `filteringConsumer`). -/
def run {R : Type} (net : Net R) (sched : Nat → Bool) :
    Nat → Nat → Engine R → List R → RunResult R
  | 0, _, s, acc => RunResult.outOfFuel s acc
  | fuel + 1, k, s, acc =>
      match pullStep net (sched k) s with
      | StepRes.next s' r => run net sched fuel (k + 1) s' (acc ++ r.toList)
      | StepRes.stopFalse s' => RunResult.done s' acc false
      | StepRes.stopMore s' => RunResult.done s' acc true
      | StepRes.failedStep s' => RunResult.failedRun s' acc

/-- The state constructed by `paginate` before returning: empty buffer, the
starting link, and the eager first fetch guarded exactly like `advance`'s
issuance (`link && !inFlight.has(link) && (limit === -1 || total < limit)`,
with `total = 0` and an empty in-flight set). -/
def initEngine {R : Type} (limit : Int) : Engine R :=
  let s : Engine R :=
    { buffer := [], total := 0, link := some 0, inFlight := [], reqs := [],
      limit := limit, count := 0, trace := [] }
  if limit = -1 ∨ (0 : Int) < limit then doRequest s 0 else s

/-- `cursor.addMore`: `(many = -1) => many === -1 ? (limit = -1) : (limit += many)`. -/
def engineAddMore {R : Type} (s : Engine R) (many : Int) : Engine R :=
  if many = -1 then { s with limit := -1 } else { s with limit := s.limit + many }

def RunResult.delivered {R : Type} : RunResult R → List R
  | RunResult.done _ d _ => d
  | RunResult.failedRun _ d => d
  | RunResult.outOfFuel _ d => d

def RunResult.state {R : Type} : RunResult R → Engine R
  | RunResult.done s _ _ => s
  | RunResult.failedRun s _ => s
  | RunResult.outOfFuel s _ => s

/-- The resolution value of `consume`: `some false` = resolved `false`,
`some true` = resolved with `addMore`, `none` = rejected or fuel ran out. -/
def RunResult.moreFlag {R : Type} : RunResult R → Option Bool
  | RunResult.done _ _ m => some m
  | _ => none

def RunResult.isFailed {R : Type} : RunResult R → Bool
  | RunResult.failedRun _ _ => true
  | _ => false

def StepRes.state {R : Type} : StepRes R → Engine R
  | StepRes.next s _ => s
  | StepRes.stopFalse s => s
  | StepRes.stopMore s => s
  | StepRes.failedStep s => s

/-- The demand-driven schedule: every fetch settles only when a pull
awaits it. -/
def lazySched : Nat → Bool := fun _ => false

/-- The elements an engine state can still yield, ignoring the cap: the
buffer followed by all pages from the current link on. -/
def availOf {R : Type} (net : Net R) (s : Engine R) : List R :=
  s.buffer ++ (match s.link with
               | some u => (net.chain.drop u).flatten
               | none => [])

/-- Number of `issue u` events in a trace. -/
def issuedCount (t : List Ev) (u : Nat) : Nat := t.count (Ev.issue u)

/-- Number of completion events (success or failure) for `u` in a trace. -/
def completedCount (t : List Ev) (u : Nat) : Nat :=
  t.count (Ev.completeOk u) + t.count (Ev.completeFail u)

/-- Number of delivered elements recorded in a trace. -/
def deliverCount (t : List Ev) : Nat := t.count Ev.deliver

/-- Number of pending queue entries for URL `u`. -/
def pendingCount (reqs : List (Nat × Option Bool)) (u : Nat) : Nat :=
  reqs.countP (fun p => decide (p.1 = u ∧ p.2 = (none : Option Bool)))

/-- At every point of a trace, each URL has at most one outstanding fetch:
issued fetches never exceed completions by more than one. -/
def SingleFlight (t : List Ev) : Prop :=
  ∀ n u, issuedCount (t.take n) u ≤ completedCount (t.take n) u + 1

/-- Total number of resources on the first `u` pages. -/
def cumLen {R : Type} (chain : List (List R)) (u : Nat) : Nat :=
  ((chain.take u).map List.length).sum

/-- Index of the page holding the next element to deliver, after `d`
elements have been delivered (`chain.length` when everything is out). -/
def currentPage {R : Type} : List (List R) → Nat → Nat
  | [], _ => 0
  | p :: rest, d => if d < p.length then 0 else 1 + currentPage rest (d - p.length)

/-- One-page read-ahead: whenever a fetch for URL `u` is issued, `u` is at
most one page beyond the page currently being drained. -/
def ReadAhead {R : Type} (chain : List (List R)) (t : List Ev) : Prop :=
  ∀ n u, t[n]? = some (Ev.issue u) →
    u ≤ currentPage chain (deliverCount (t.take n)) + 1

/-- Bookkeeping invariant tying the trace to the request queue and the
in-flight set: every issued fetch is accounted for by a completion or by
exactly one pending queue entry, and every URL with a pending entry is in
flight. -/
def InvFlight {R : Type} (s : Engine R) : Prop :=
  (∀ u, issuedCount s.trace u = completedCount s.trace u + pendingCount s.reqs u)
  ∧ (∀ u, pendingCount s.reqs u ≤ 1)
  ∧ (∀ u, 1 ≤ pendingCount s.reqs u → u ∈ s.inFlight)
  ∧ SingleFlight s.trace
  ∧ s.inFlight.Nodup

/-- Invariant of demand-driven runs used for the read-ahead bound: the
request queue holds at most the pending fetch of the current link, the
link stays inside the chain, `total` equals the resources of the pages
before the link, the trace's deliveries account for `total` minus the
buffer, and the buffer never exceeds the page preceding the link. -/
def InvRead {R : Type} (net : Net R) (s : Engine R) : Prop :=
  (s.reqs = [] ∨ ∃ u, s.reqs = [(u, none)] ∧ s.link = some u ∧ u ∈ s.inFlight)
  ∧ (∀ u, s.link = some u → 1 ≤ u → u < net.chain.length)
  ∧ (∀ u, s.link = some u → s.total = cumLen net.chain u)
  ∧ s.total = deliverCount s.trace + s.buffer.length
  ∧ (∀ u, s.link = some u →
      s.buffer.length ≤ if u = 0 then 0 else (net.chain.getD (u - 1) []).length)
  ∧ ReadAhead net.chain s.trace

/-- Invariant of demand-driven, failure-free runs over chains of non-empty
pages, with a finite cap `n`. -/
def InvLazy {R : Type} (net : Net R) (n : Nat) (s : Engine R) : Prop :=
  s.limit = (n : Int)
  ∧ s.count ≤ n
  ∧ s.total = s.count + s.buffer.length
  ∧ (s.reqs = [] ∧ s.inFlight = []
     ∨ ∃ u, s.reqs = [(u, none)] ∧ s.inFlight = [u] ∧ s.link = some u)
  ∧ (∀ u, s.link = some u → u < net.chain.length)

/- ------------------------------------------------------------------ -/
/- Link table and collection-link construction (`getLink`,
`collectionLink`, used by `all`). -/

inductive JsErr : Type where
  | typeError
  | rejected (msg : String)
deriving DecidableEq, Repr

def lookupLink (links : List (String × String)) (t : String) : Option String :=
  (links.find? (fun p => p.1 == t)).map (fun p => p.2)

/-- `getLink` from the source: when the type is missing from the link
table, the code evaluates `Promise.reject(...)` but neither returns nor
awaits it, so the floating rejection has no effect on the returned
promise, which resolves with `links[type]` — `undefined` for a missing
type.  The returned promise therefore never rejects. -/
def getLink (links : List (String × String)) (t : String) : Except JsErr (Option String) :=
  Except.ok (lookupLink links t)

/-- JS template-string interpolation of the awaited link value. -/
def jsStringOfUrl : Option String → String
  | some s => s
  | none => "undefined"

/-- `collectionLink` as called from `all` with default `sort`/`filter`:
the empty filter and sort contribute nothing, the page fragment becomes
the whole query, appended to the stringified link. -/
def collectionLink (links : List (String × String)) (t : String) : Except JsErr String := do
  let l ← getLink links t
  Except.ok (jsStringOfUrl l ++ "?page[limit]=50")

/- ------------------------------------------------------------------ -/
/- Relationship expansion (`expandRelationships`,
`decorateWithRelationships`).  Nested relationship specs recurse the same
mapping; the nesting is elided here because the claims only concern the
top-level spec value. -/

/-- One entry of a caller relationship spec: a bare field-name string or
an object with `field` and optional `limit`. -/
inductive RelNode : Type where
  | str (s : String)
  | obj (field : String) (limit : Option Int)
deriving DecidableEq, Repr

/-- The `expander` inside `expandRelationships`: a bare string becomes
`{field: name}`. -/
def expander : RelNode → RelNode
  | RelNode.str s => RelNode.obj s none
  | n => n

/-- `objectMapper` applied to the `relationships` argument.  Its first
step is `Object.getOwnPropertyNames(node)`, which throws a `TypeError`
when `node` is `null` or `undefined` (the default value of the
`relationships` option of `all`). -/
def objectMapper : Option (List (String × RelNode)) → Except JsErr (List (String × RelNode))
  | none => Except.error JsErr.typeError
  | some props => Except.ok (props.map (fun p => (p.1, expander p.2)))

def expandRelationships (relationships : Option (List (String × RelNode))) :
    Except JsErr (List (String × RelNode)) :=
  objectMapper relationships

/-- The prefix of `all` up to the `paginate` call: resolve the collection
link, expand the relationship spec, and hand both to `paginate`. -/
def allRequest (links : List (String × String)) (t : String)
    (relationships : Option (List (String × RelNode))) :
    Except JsErr (String × List (String × RelNode)) := do
  let link ← collectionLink links t
  let expanded ← expandRelationships relationships
  Except.ok (link, expanded)

/-- `decorateWithRelationships`: with a null spec the consumer is returned
unchanged and is therefore invoked with the resource only (second JS
argument `undefined`, modelled as `none`); with a spec the consumer
receives the mirror of nested sequences as second argument. -/
def decorateWithRelationships {R M V : Type} (consumer : R → Option M → V)
    (relationships : Option M) : R → V :=
  match relationships with
  | none => fun resource => consumer resource none
  | some rel => fun resource => consumer resource (some rel)

/- ------------------------------------------------------------------ -/
/- Document unwrapping (`documentData`). -/

structure JDoc (R E : Type) where
  hasData : Option (List R)
  hasErrors : Option (List E)
deriving DecidableEq, Repr

inductive DocErr (E : Type) : Type where
  | errorsDoc (es : List E)
  | unprocessable
deriving DecidableEq, Repr

/-- `documentData`: `data` is checked first and returned when present;
otherwise a document with `errors` throws carrying the document, and a
document with neither throws the unprocessable-document error. -/
def documentData {R E : Type} (doc : JDoc R E) : Except (DocErr E) (List R) :=
  match doc.hasData with
  | some d => Except.ok d
  | none =>
      match doc.hasErrors with
      | some es => Except.error (DocErr.errorsDoc es)
      | none => Except.error DocErr.unprocessable

/- ------------------------------------------------------------------ -/
/- Order-preservation mechanics of `consume` (the `queuedConsumer` /
drain phase).  Elements are abstracted to arrival indices; an async
visitor invocation is a start event followed by an end event, and an
awaited invocation contributes both before anything later runs. -/

inductive OEv : Type where
  | arrive (i : Nat)
  | enq (i : Nat)
  | invStart (i : Nat)
  | invEnd (i : Nat)
deriving DecidableEq, Repr

structure ConsumeState where
  ctrace : List OEv
  queue : List Nat
deriving DecidableEq, Repr

/-- `queuedConsumer`: with `preserveOrder` the invocation is wrapped in a
thunk and queued unexecuted; otherwise `consumer(resource)` is evaluated
on the spot (its completion is not awaited) and its promise is queued. -/
def queuedConsumer (preserveOrder : Bool) (st : ConsumeState) (i : Nat) : ConsumeState :=
  if preserveOrder then
    { st with ctrace := st.ctrace ++ [OEv.enq i], queue := st.queue ++ [i] }
  else
    { st with ctrace := st.ctrace ++ [OEv.invStart i], queue := st.queue ++ [i] }

/-- The pull phase of `consume`: each element arrives and is handed to
`queuedConsumer`. -/
def pullLoop (preserveOrder : Bool) : List Nat → ConsumeState → ConsumeState
  | [], st => st
  | i :: rest, st =>
      pullLoop preserveOrder rest
        (queuedConsumer preserveOrder { st with ctrace := st.ctrace ++ [OEv.arrive i] } i)

/-- The drain phase (`while (queue.length) { let fn = queue.shift(); let
ret = fn(); ... await ret }`): thunks run strictly in queue order and each
invocation's completion is awaited before the next starts. -/
def drainLoop : List Nat → List OEv → List OEv
  | [], tr => tr
  | i :: rest, tr => drainLoop rest (tr ++ [OEv.invStart i, OEv.invEnd i])

/-- The whole ordered part of one `consume` call: pull everything, then
drain the queue only when `preserveOrder` was requested. -/
def consumeOrdered (preserveOrder : Bool) (arrivals : List Nat) : List OEv :=
  let st := pullLoop preserveOrder arrivals { ctrace := [], queue := [] }
  if preserveOrder then drainLoop st.queue st.ctrace else st.ctrace

/- ------------------------------------------------------------------ -/
/- Concrete networks and schedules used as test inputs. -/

def allOkOutcome : Nat → Outcome := fun _ => Outcome.ok

/-- A chain whose first page is empty and links on to a page of two. -/
def netEmptyFirst : Net Nat := { chain := [[], [1, 2]], outcome := allOkOutcome }

/-- A three-page chain with two resources per page. -/
def netThreePages : Net Nat := { chain := [[1, 2], [3, 4], [5, 6]], outcome := allOkOutcome }

/-- A single-page chain whose fetch always rejects at the transport. -/
def netTransportFail : Net Nat := { chain := [[1]], outcome := fun _ => Outcome.transportErr }

/-- A single-page chain whose document unwraps to a `DocumentError`. -/
def netDocFail : Net Nat := { chain := [[1, 2]], outcome := fun _ => Outcome.docErr }

/-- A four-page chain of three resources per page. -/
def netFourPages : Net Nat :=
  { chain := [[0, 1, 2], [10, 11, 12], [20, 21, 22], [30, 31, 32]], outcome := allOkOutcome }

/-- A schedule where exactly the third pull is preceded by an early fetch
completion. -/
def schedEagerAt2 : Nat → Bool := fun k => decide (k = 2)

/-- A schedule where the second pull is preceded by an early completion. -/
def schedEagerAt1 : Nat → Bool := fun k => decide (k = 1)

/-- A transported document carrying both `data` and `errors`. -/
def docBoth : JDoc Nat String := { hasData := some [1], hasErrors := some ["boom"] }

/- ================================================================== -/
/- Theorems.                                                          -/
/- ================================================================== -/

theorem pullLoop_true_spec (l : List Nat) (st : ConsumeState) :
    pullLoop true l st =
      { ctrace := st.ctrace ++ l.flatMap (fun i => [OEv.arrive i, OEv.enq i]),
        queue := st.queue ++ l } := by
  induction l generalizing st with
  | nil => simp [pullLoop]
  | cons i rest ih => simp [pullLoop, queuedConsumer, ih]

theorem drainLoop_spec (l : List Nat) (tr : List OEv) :
    drainLoop l tr = tr ++ l.flatMap (fun i => [OEv.invStart i, OEv.invEnd i]) := by
  induction l generalizing tr with
  | nil => simp [drainLoop]
  | cons i rest ih => simp [drainLoop, ih]

/-- C6: with `preserveOrder = true`, visitor invocations are only recorded
(queued) while elements arrive — the pull phase contains no invocation
event — and after the pull phase completes the queued invocations run
strictly in arrival order, each invocation's completion (its end event)
preceding the start of the next invocation. -/
theorem c6_preserve_order_queue_then_drain (arrivals : List Nat) :
    consumeOrdered true arrivals =
      arrivals.flatMap (fun i => [OEv.arrive i, OEv.enq i]) ++
      arrivals.flatMap (fun i => [OEv.invStart i, OEv.invEnd i]) := by
  simp [consumeOrdered, pullLoop_true_spec, drainLoop_spec]

/-- C10: whenever `paginate` is constructed with an unlimited cap or a cap
greater than zero, the fetch of the first page is issued eagerly at
construction time — the trace of the freshly built engine already contains
the issue of URL 0 before any pull has happened. -/
theorem c10_eager_first_fetch (limit : Int) (h : limit = -1 ∨ 0 < limit) :
    (initEngine limit : Engine Nat).trace = [Ev.issue 0] := by
  have : (limit = -1 ∨ (0 : Int) < limit) = True := by simp [h]
  simp [initEngine, this, doRequest]

/-- Witness for C10 at the unlimited cap. -/
theorem c10_eager_first_fetch_witness :
    ((-1 : Int) = -1 ∨ (0 : Int) < -1) ∧ (initEngine (-1) : Engine Nat).trace = [Ev.issue 0] :=
  ⟨Or.inl rfl, c10_eager_first_fetch (-1) (Or.inl rfl)⟩

/-- C1 (code bug): with a link table that does not contain the requested
type, `getLink` resolves (the `Promise.reject` it builds is discarded, not
returned), `collectionLink` then builds the string
`"undefined?page[limit]=50"` from the undefined link, and the pagination
engine constructed over a (truthy) link eagerly issues a fetch — so a
fetch is attempted instead of the promised immediate unknown-type
failure. -/
theorem c1_missing_type_resolves_and_fetches :
    getLink [] "article" = Except.ok none
  ∧ collectionLink [] "article" = Except.ok "undefined?page[limit]=50"
  ∧ (initEngine (-1) : Engine Nat).trace = [Ev.issue 0] :=
  ⟨rfl, rfl, rfl⟩

/-- C5 (code bug): a collection request with no relationship spec (the
default `relationships = null` of `all`) reaches
`expandRelationships(null)`, whose `Object.getOwnPropertyNames(null)`
throws a `TypeError`, so the request rejects before `paginate` is ever
called; the no-op pass-through branch of `decorateWithRelationships`
exists (third conjunct: with a null spec the visitor is invoked with just
the resource) but is unreachable through `all` without a spec. -/
theorem c5_null_relationships_rejects :
    allRequest [("article", "http://example.com/jsonapi/node/article")] "article" none
      = Except.error JsErr.typeError
  ∧ expandRelationships none = Except.error JsErr.typeError
  ∧ ∀ (c : Nat → Option Unit → Nat) (r : Nat),
      decorateWithRelationships c none r = c r none :=
  ⟨rfl, rfl, fun c r => rfl⟩

/-- C9 counterexample: a successfully transported document that contains
both `data` and `errors` is unwrapped without failure (`data` is checked
first), although the claim requires every document containing `errors` to
fail. -/
theorem c9_counterexample :
    documentData docBoth = Except.ok [1] ∧ docBoth.hasErrors = some ["boom"] :=
  ⟨rfl, rfl⟩

/-- C9 (amended): unwrapping a document fails exactly when the document
has no `data` member (with `errors` present the failure carries them,
otherwise it is the unprocessable-document error); and an errors-only
first page makes the whole `consume` call fail with no element ever
delivered. -/
theorem c9_amended :
    (∀ d : JDoc Nat String, (documentData d).isOk = false ↔ d.hasData = none)
  ∧ (run netDocFail lazySched 3 0 (initEngine (-1)) []).isFailed = true
  ∧ (run netDocFail lazySched 3 0 (initEngine (-1)) []).delivered = [] := by
  refine ⟨fun d => ?_, by decide, by decide⟩
  rcases d with ⟨hd, he⟩
  cases hd <;> cases he <;> simp [documentData, Except.isOk, Except.toBool]

/-- C2 counterexample: with a transport that rejects the fetch of URL 0,
the `consume` pull fails, but URL 0 is still a member of the in-flight set
afterwards (the `then` callback that would delete it never ran); a
subsequent `consume` after `addMore(5)` issues no new fetch for it — the
trace still has a single issue event — and delivers nothing. -/
theorem c2_counterexample :
    (run netTransportFail lazySched 3 0 (initEngine (-1)) []).isFailed = true
  ∧ 0 ∈ (run netTransportFail lazySched 3 0 (initEngine (-1)) []).state.inFlight
  ∧ issuedCount
      (run netTransportFail lazySched 4 0
        (engineAddMore (run netTransportFail lazySched 3 0 (initEngine (-1)) []).state 5)
        []).state.trace 0 = 1
  ∧ (run netTransportFail lazySched 4 0
        (engineAddMore (run netTransportFail lazySched 3 0 (initEngine (-1)) []).state 5)
        []).delivered = [] := by
  decide

/-- C3 counterexample: on an engine whose current cap is unlimited (-1),
`addMore(3)` does `limit += 3`, producing the finite cap 2 — instead of
leaving the sequence unlimited (or extending it) — so a six-element chain
afterwards delivers only two elements and stops at the cap. -/
theorem c3_counterexample :
    (engineAddMore (initEngine (-1) : Engine Nat) 3).limit = 2
  ∧ (run netThreePages lazySched 8 0 (engineAddMore (initEngine (-1)) 3) []).delivered = [1, 2]
  ∧ (run netThreePages lazySched 8 0 (engineAddMore (initEngine (-1)) 3) []).moreFlag
      = some true := by
  decide

/-- C4 counterexample: two concrete runs violate the cap law.  With a cap
of 2 over the chain `[[], [1, 2]]` (two available in total) only one
element is delivered — the empty first page consumes a cap slot via a null
pull — and the call resolves to `addMore` although `totalAvailable ≤ n`.
With a cap of 6 over three two-element pages, an early fetch completion at
the third pull leaves a stale settled promise in the request queue, a
later pull shifts it and burns a cap slot, so only five of six elements
are delivered and the call again resolves to `addMore`. -/
theorem c4_counterexample :
    (run netEmptyFirst lazySched 5 0 (initEngine 2) []).delivered.length = 1
  ∧ min 2 netEmptyFirst.chain.flatten.length = 2
  ∧ (run netEmptyFirst lazySched 5 0 (initEngine 2) []).moreFlag = some true
  ∧ (run netThreePages schedEagerAt2 9 0 (initEngine 6) []).delivered.length = 5
  ∧ min 6 netThreePages.chain.flatten.length = 6
  ∧ (run netThreePages schedEagerAt2 9 0 (initEngine 6) []).moreFlag = some true := by
  decide

/-- C8 counterexample: with fetch completions that can arrive while the
buffer is still being drained, the engine issues the fetch of page 2 while
page 0 is still being drained (only two of its three elements delivered)
and page 1 already sits fetched in the buffer — two pages beyond the page
currently being drained, violating the one-page read-ahead bound. -/
theorem c8_counterexample :
    ¬ ReadAhead netFourPages.chain
        (run netFourPages schedEagerAt2 14 0 (initEngine (-1)) []).state.trace := by
  intro h
  have h2 := h 6 2 (by decide)
  exact absurd h2 (by decide)

/- Counting helpers. -/

@[simp] theorem issuedCount_nil (u : Nat) : issuedCount [] u = 0 := rfl

@[simp] theorem completedCount_nil (u : Nat) : completedCount [] u = 0 := rfl

@[simp] theorem deliverCount_nil : deliverCount [] = 0 := rfl

@[simp] theorem pendingCount_nil (u : Nat) : pendingCount [] u = 0 := rfl

@[simp] theorem issuedCount_append (t1 t2 : List Ev) (u : Nat) :
    issuedCount (t1 ++ t2) u = issuedCount t1 u + issuedCount t2 u := by
  simp [issuedCount, List.count_append]

@[simp] theorem completedCount_append (t1 t2 : List Ev) (u : Nat) :
    completedCount (t1 ++ t2) u = completedCount t1 u + completedCount t2 u := by
  simp [completedCount, List.count_append]; omega

@[simp] theorem deliverCount_append (t1 t2 : List Ev) :
    deliverCount (t1 ++ t2) = deliverCount t1 + deliverCount t2 := by
  simp [deliverCount, List.count_append]

@[simp] theorem pendingCount_append (r1 r2 : List (Nat × Option Bool)) (u : Nat) :
    pendingCount (r1 ++ r2) u = pendingCount r1 u + pendingCount r2 u := by
  simp [pendingCount, List.countP_append]

@[simp] theorem issuedCount_singleton (e : Ev) (u : Nat) :
    issuedCount [e] u = if e = Ev.issue u then 1 else 0 := by
  simp [issuedCount, List.count_singleton']

@[simp] theorem completedCount_singleton (e : Ev) (u : Nat) :
    completedCount [e] u =
      (if e = Ev.completeOk u then 1 else 0) + (if e = Ev.completeFail u then 1 else 0) := by
  simp [completedCount, List.count_singleton']

@[simp] theorem deliverCount_singleton (e : Ev) :
    deliverCount [e] = if e = Ev.deliver then 1 else 0 := by
  simp [deliverCount, List.count_singleton']

@[simp] theorem pendingCount_singleton (w : Nat × Option Bool) (u : Nat) :
    pendingCount [w] u = if w.1 = u ∧ w.2 = none then 1 else 0 := by
  simp [pendingCount, List.countP_cons]

theorem pendingCount_cons (w : Nat × Option Bool) (r : List (Nat × Option Bool)) (u : Nat) :
    pendingCount (w :: r) u = pendingCount r u + if w.1 = u ∧ w.2 = none then 1 else 0 := by
  simp [pendingCount, List.countP_cons]

/- SingleFlight helpers. -/

theorem singleFlight_nil : SingleFlight [] := by
  intro n u
  simp [SingleFlight]

theorem singleFlight_append_of_no_issue (t : List Ev) (e : Ev)
    (ht : SingleFlight t) (he : ∀ u, e ≠ Ev.issue u) : SingleFlight (t ++ [e]) := by
  intro n v
  by_cases hn : n ≤ t.length
  · rw [List.take_append_of_le_length hn]
    exact ht n v
  · rw [List.take_of_length_le (by simp; omega)]
    have h1 := ht t.length v
    rw [List.take_of_length_le (le_refl _)] at h1
    have h2 : (e = Ev.issue v) = False := by simp [he v]
    simp [h2]
    omega

theorem singleFlight_append_issue (t : List Ev) (u : Nat)
    (ht : SingleFlight t) (h : issuedCount t u ≤ completedCount t u) :
    SingleFlight (t ++ [Ev.issue u]) := by
  intro n v
  by_cases hn : n ≤ t.length
  · rw [List.take_append_of_le_length hn]
    exact ht n v
  · rw [List.take_of_length_le (by simp; omega)]
    have h1 := ht t.length v
    rw [List.take_of_length_le (le_refl _)] at h1
    by_cases hv : v = u
    · subst hv
      simp
      omega
    · have h2 : (Ev.issue u = Ev.issue v) = False := by simp [Ne.symm hv]
      simp [h2]
      omega

/- InvFlight preservation. -/

theorem mem_setAdd_self (s : List Nat) (u : Nat) : u ∈ setAdd s u := by
  by_cases h : u ∈ s <;> simp [setAdd, h]

theorem mem_setAdd_of_mem (s : List Nat) (u v : Nat) (h : v ∈ s) : v ∈ setAdd s u := by
  by_cases hu : u ∈ s <;> simp [setAdd, hu, h]

theorem nodup_setAdd (s : List Nat) (u : Nat) (h : s.Nodup) : (setAdd s u).Nodup := by
  by_cases hu : u ∈ s
  · simp [setAdd, hu, h]
  · simp [setAdd, hu, List.nodup_append, h, List.disjoint_left]

theorem invFlight_doRequest {R : Type} {s : Engine R} (hInv : InvFlight s) (u : Nat)
    (hu : u ∉ s.inFlight) : InvFlight (doRequest s u) := by
  obtain ⟨h1, hle, h2, h3, h4⟩ := hInv
  have hp0 : pendingCount s.reqs u = 0 := by
    by_contra h
    exact hu (h2 u (by omega))
  refine ⟨?_, ?_, ?_, ?_, ?_⟩
  · intro v
    by_cases hv : v = u
    · subst hv
      simp [doRequest, h1 v, hp0]
    · simp [doRequest, Ne.symm hv, h1 v]
  · intro v
    by_cases hv : v = u
    · subst hv
      simp [doRequest, hp0]
    · simp [doRequest, Ne.symm hv]
      exact hle v
  · intro v hv
    by_cases hvu : v = u
    · subst hvu
      simp [doRequest]
      exact mem_setAdd_self _ _
    · simp [doRequest, Ne.symm hvu] at hv
      simp [doRequest]
      exact mem_setAdd_of_mem _ _ _ (h2 v (by omega))
  · simp only [doRequest]
    exact singleFlight_append_issue _ _ h3 (by rw [h1 u, hp0]; omega)
  · simp only [doRequest]
    exact nodup_setAdd _ _ h4

theorem invFlight_complete_aux {R : Type} (net : Net R) (s : Engine R) (r' : List (Nat × Option Bool))
    (u : Nat) (hInv : InvFlight s)
    (hr : ∀ v, pendingCount r' v + (if v = u then 1 else 0) = pendingCount s.reqs v) :
    InvFlight (completeEffects net { s with reqs := r' } u) := by
  obtain ⟨h1, hle, h2, h3, h4⟩ := hInv
  have hrle : ∀ v, pendingCount r' v ≤ pendingCount s.reqs v := by
    intro v
    have := hr v
    omega
  have hmem : ∀ v, 1 ≤ pendingCount r' v → v ∈ s.inFlight := by
    intro v hv
    exact h2 v (le_trans hv (hrle v))
  have hmem' : ∀ v, 1 ≤ pendingCount r' v → v ∈ s.inFlight.erase u := by
    intro v hv
    have hvu : v ≠ u := by
      intro h
      have h4 := hr u
      rw [if_pos rfl] at h4
      have := hle u
      rw [h] at hv
      omega
    exact (List.mem_erase_of_ne hvu).2 (hmem v hv)
  have heq : ∀ v, issuedCount s.trace v
      = completedCount s.trace v + pendingCount r' v + (if v = u then 1 else 0) := by
    intro v
    have := hr v
    have := h1 v
    omega
  have hsf : ∀ e, (∀ w, e = Ev.issue w → False) → SingleFlight (s.trace ++ [e]) :=
    fun e he => singleFlight_append_of_no_issue _ _ h3 (fun w hw => he w hw)
  cases ho : net.outcome u with
  | ok =>
      refine ⟨?_, ?_, ?_, ?_, ?_⟩
      · intro v
        by_cases hv : v = u
        · subst hv
          simp [completeEffects, ho, heq v]
          omega
        · simp [completeEffects, ho, Ne.symm hv, heq v, if_neg hv]
      · intro v
        simp [completeEffects, ho]
        exact hrle v |>.trans (hle v)
      · intro v hv
        simp [completeEffects, ho] at hv ⊢
        exact hmem' v hv
      · simp only [completeEffects, ho]
        exact hsf _ (by intro w hw; cases hw)
      · simp [completeEffects, ho]
        exact h4.erase u
  | transportErr =>
      refine ⟨?_, ?_, ?_, ?_, ?_⟩
      · intro v
        by_cases hv : v = u
        · subst hv
          simp [completeEffects, ho, heq v]
          omega
        · simp [completeEffects, ho, Ne.symm hv, heq v, if_neg hv]
      · intro v
        simp [completeEffects, ho]
        exact hrle v |>.trans (hle v)
      · intro v hv
        simp [completeEffects, ho] at hv ⊢
        exact hmem v hv
      · simp only [completeEffects, ho]
        exact hsf _ (by intro w hw; cases hw)
      · simp [completeEffects, ho]
        exact h4
  | docErr =>
      refine ⟨?_, ?_, ?_, ?_, ?_⟩
      · intro v
        by_cases hv : v = u
        · subst hv
          simp [completeEffects, ho, heq v]
          omega
        · simp [completeEffects, ho, Ne.symm hv, heq v, if_neg hv]
      · intro v
        simp [completeEffects, ho]
        exact hrle v |>.trans (hle v)
      · intro v hv
        simp [completeEffects, ho] at hv ⊢
        exact hmem' v hv
      · simp only [completeEffects, ho]
        exact hsf _ (by intro w hw; cases hw)
      · simp [completeEffects, ho]
        exact h4.erase u

theorem pendingCount_settleFirst (u : Nat) (b : Bool) :
    ∀ (reqs : List (Nat × Option Bool)), 1 ≤ pendingCount reqs u →
      ∀ v, pendingCount (settleFirst reqs u b) v + (if v = u then 1 else 0)
        = pendingCount reqs v := by
  intro reqs
  induction reqs with
  | nil => intro h; simp at h
  | cons w rest ih =>
      intro h v
      obtain ⟨w1, w2⟩ := w
      by_cases hw : w1 = u ∧ w2 = none
      · obtain ⟨hw1, hw2⟩ := hw
        subst hw1; subst hw2
        simp [settleFirst, pendingCount_cons]
        by_cases hv : v = w1
        · subst hv; simp
        · simp [hv, Ne.symm hv]
      · rw [pendingCount_cons] at h
        have hrest : 1 ≤ pendingCount rest u := by
          by_cases hcond : w1 = u ∧ w2 = none
          · exact absurd hcond hw
          · simp [hcond] at h; omega
        have hstep := ih hrest v
        simp only [settleFirst, if_neg hw, pendingCount_cons]
        omega

theorem invFlight_eagerComplete {R : Type} (net : Net R) (s : Engine R)
    (hInv : InvFlight s) : InvFlight (eagerComplete net s) := by
  unfold eagerComplete
  cases hf : s.reqs.find? (fun p => decide (p.2 = (none : Option Bool))) with
  | none => exact hInv
  | some p =>
      have hp2 : p.2 = none := by simpa using List.find?_some hf
      have hpmem : p ∈ s.reqs := List.mem_of_find?_eq_some hf
      have hp : 1 ≤ pendingCount s.reqs p.1 := by
        have : 0 < pendingCount s.reqs p.1 := by
          refine List.countP_pos_iff.2 ⟨p, hpmem, ?_⟩
          simp [hp2]
        omega
      exact invFlight_complete_aux net s _ p.1 hInv (pendingCount_settleFirst p.1 _ s.reqs hp)

theorem invFlight_dropSettled {R : Type} {s : Engine R} (u : Nat) (b : Bool)
    (rest : List (Nat × Option Bool)) (hq : s.reqs = (u, some b) :: rest)
    (hInv : InvFlight s) : InvFlight { s with reqs := rest } := by
  obtain ⟨h1, hle, h2, h3, h4⟩ := hInv
  have hpc : ∀ v, pendingCount s.reqs v = pendingCount rest v := by
    intro v
    rw [hq, pendingCount_cons]
    simp
  refine ⟨?_, ?_, ?_, h3, h4⟩
  · intro v
    have := h1 v
    rw [hpc v] at this
    simpa using this
  · intro v
    have := hle v
    rw [hpc v] at this
    simpa using this
  · intro v hv
    simp at hv
    exact h2 v (by rw [hpc v]; omega)

theorem invFlight_deliverUpdate {R : Type} {s : Engine R} (hInv : InvFlight s)
    (bl : List R) (c : Nat) (X : List Ev) (hx : X = [] ∨ X = [Ev.deliver]) :
    InvFlight { s with buffer := bl, count := c, trace := s.trace ++ X } := by
  obtain ⟨h1, hle, h2, h3, h4⟩ := hInv
  have hsf : SingleFlight (s.trace ++ X) := by
    rcases hx with hx | hx
    · simpa [hx] using h3
    · rw [hx]
      exact singleFlight_append_of_no_issue _ _ h3 (by intro u h; cases h)
  refine ⟨?_, hle, h2, hsf, h4⟩
  · intro v
    rcases hx with hx | hx <;> simp [hx, h1 v]

theorem invFlight_advance {R : Type} (net : Net R) (s : Engine R) (hInv : InvFlight s) :
    InvFlight (advance net s).1 := by
  have h1 : InvFlight (maybeIssue s) := by
    unfold maybeIssue
    cases hl : s.link with
    | none => exact hInv
    | some u =>
        by_cases hg : u ∉ s.inFlight ∧ (s.limit = -1 ∨ (s.total : Int) < s.limit)
        · simp only [if_pos hg]
          exact invFlight_doRequest hInv u hg.1
        · simp only [if_neg hg]
          exact hInv
  unfold advance
  by_cases hb : (maybeIssue s).buffer.isEmpty
  · cases hq : (maybeIssue s).reqs with
    | nil => simpa [hb, hq] using h1
    | cons w rest =>
        obtain ⟨u, st⟩ := w
        cases st with
        | none =>
            simp only [hb, hq, if_true]
            refine invFlight_complete_aux net (maybeIssue s) rest u h1 ?_
            intro v
            rw [hq, pendingCount_cons]
            by_cases hv : v = u
            · subst hv; simp
            · simp [hv, Ne.symm hv]
        | some b =>
            cases b <;> simp only [hb, hq, if_true] <;>
              exact invFlight_dropSettled u _ rest hq h1
  · simpa [hb] using h1

theorem invFlight_pullStep {R : Type} (net : Net R) (e : Bool) (s : Engine R)
    (hInv : InvFlight s) : InvFlight (pullStep net e s).state := by
  unfold pullStep
  have h0 : InvFlight (if e then eagerComplete net s else s) := by
    cases e
    · simpa using hInv
    · simpa using invFlight_eagerComplete net s hInv
  set s0 := if e then eagerComplete net s else s with hs0
  by_cases hc : canContinue s0 = true
  · by_cases hcap : s0.limit = -1 ∨ (s0.count : Int) < s0.limit
    · have ha : InvFlight (advance net s0).1 := invFlight_advance net s0 h0
      by_cases hrej : (advance net s0).2 = true
      · simp only [hc, hcap, hrej, if_true, if_pos]
        simpa [StepRes.state] using ha
      · simp only [hc, hcap, if_true, if_pos, Bool.not_eq_true] at *
        simp only [hrej, if_false, Bool.false_eq_true, StepRes.state]
        exact invFlight_deliverUpdate ha _ _ _
          (by cases (advance net s0).1.buffer.head? <;> simp)
    · simp only [hc, if_true, if_neg hcap, StepRes.state]
      exact h0
  · simp only [if_neg hc, StepRes.state]
    exact h0

theorem invFlight_run {R : Type} (net : Net R) (sched : Nat → Bool) :
    ∀ (fuel k : Nat) (s : Engine R) (acc : List R), InvFlight s →
      InvFlight (run net sched fuel k s acc).state := by
  intro fuel
  induction fuel with
  | zero =>
      intro k s acc h
      simpa [run, RunResult.state] using h
  | succ n ih =>
      intro k s acc h
      have hp := invFlight_pullStep net (sched k) s h
      unfold run
      cases hps : pullStep net (sched k) s with
      | next s' r =>
          rw [hps] at hp
          simp only [StepRes.state] at hp
          exact ih (k + 1) s' (acc ++ r.toList) hp
      | stopFalse s' =>
          rw [hps] at hp
          simpa [RunResult.state] using hp
      | stopMore s' =>
          rw [hps] at hp
          simpa [RunResult.state] using hp
      | failedStep s' =>
          rw [hps] at hp
          simpa [RunResult.state] using hp

theorem invFlight_init {R : Type} (limit : Int) : InvFlight (initEngine (R := R) limit) := by
  have hbase : InvFlight ({ buffer := [], total := 0, link := some 0, inFlight := [], reqs := [], limit := limit, count := 0, trace := [] } : Engine R) := by
    refine ⟨by simp, by simp, by simp, singleFlight_nil, by simp⟩
  unfold initEngine
  by_cases h : limit = -1 ∨ (0 : Int) < limit
  · simp only [if_pos h]
    exact invFlight_doRequest hbase 0 (by simp)
  · simp only [if_neg h]
    exact hbase

/-- C7: in every run of the engine — any network, any fetch-completion
schedule, any outcomes, any cap — at every point of the trace each URL has
at most one outstanding fetch (a second issue for a URL is always preceded
by a completion of the first), and the in-flight set never holds duplicate
entries. -/
theorem c7_single_in_flight_per_url {R : Type} (net : Net R) (sched : Nat → Bool)
    (fuel : Nat) (limit : Int) :
    SingleFlight (run net sched fuel 0 (initEngine limit) []).state.trace
    ∧ (run net sched fuel 0 (initEngine limit) []).state.inFlight.Nodup := by
  have h := invFlight_run net sched fuel 0 (initEngine limit) [] (invFlight_init limit)
  exact ⟨h.2.2.2.1, h.2.2.2.2⟩

/- Persistence of a transport-failed URL: the in-flight entry is never
removed and no fetch for it is ever issued again. -/

theorem transportPersists_completeEffects {R : Type} (net : Net R) (s : Engine R) (u v : Nat)
    (ho : net.outcome u = Outcome.transportErr) (hm : u ∈ s.inFlight) :
    u ∈ (completeEffects net s v).inFlight
    ∧ issuedCount (completeEffects net s v).trace u = issuedCount s.trace u := by
  by_cases hv : v = u
  · subst hv
    simp [completeEffects, ho, hm]
  · have hne : u ≠ v := Ne.symm hv
    cases hov : net.outcome v with
    | ok =>
        refine ⟨?_, ?_⟩
        · simp only [completeEffects, hov]
          exact (List.mem_erase_of_ne hne).2 hm
        · simp [completeEffects, hov]
    | transportErr =>
        refine ⟨?_, ?_⟩
        · simp only [completeEffects, hov]
          exact hm
        · simp [completeEffects, hov]
    | docErr =>
        refine ⟨?_, ?_⟩
        · simp only [completeEffects, hov]
          exact (List.mem_erase_of_ne hne).2 hm
        · simp [completeEffects, hov]

theorem transportPersists_maybeIssue {R : Type} (s : Engine R) (u : Nat) (hm : u ∈ s.inFlight) :
    u ∈ (maybeIssue s).inFlight ∧ issuedCount (maybeIssue s).trace u = issuedCount s.trace u := by
  unfold maybeIssue
  cases hl : s.link with
  | none => exact ⟨hm, rfl⟩
  | some v =>
      by_cases hg : v ∉ s.inFlight ∧ (s.limit = -1 ∨ (s.total : Int) < s.limit)
      · have hvu : v ≠ u := fun h => hg.1 (h ▸ hm)
        simp only [if_pos hg]
        refine ⟨?_, ?_⟩
        · simp only [doRequest]
          exact mem_setAdd_of_mem _ _ _ hm
        · simp [doRequest, hvu]
      · simp only [if_neg hg]
        refine ⟨hm, ?_⟩
        trivial

theorem transportPersists_eagerComplete {R : Type} (net : Net R) (s : Engine R) (u : Nat)
    (ho : net.outcome u = Outcome.transportErr) (hm : u ∈ s.inFlight) :
    u ∈ (eagerComplete net s).inFlight
    ∧ issuedCount (eagerComplete net s).trace u = issuedCount s.trace u := by
  unfold eagerComplete
  cases hf : s.reqs.find? (fun p => decide (p.2 = (none : Option Bool))) with
  | none => exact ⟨hm, rfl⟩
  | some p =>
      exact transportPersists_completeEffects net
        { s with reqs := settleFirst s.reqs p.1 (decide (net.outcome p.1 = Outcome.ok)) }
        u p.1 ho hm

theorem transportPersists_advance {R : Type} (net : Net R) (s : Engine R) (u : Nat)
    (ho : net.outcome u = Outcome.transportErr) (hm : u ∈ s.inFlight) :
    u ∈ (advance net s).1.inFlight
    ∧ issuedCount (advance net s).1.trace u = issuedCount s.trace u := by
  obtain ⟨hm1, ht1⟩ := transportPersists_maybeIssue s u hm
  unfold advance
  by_cases hb : (maybeIssue s).buffer.isEmpty
  · cases hq : (maybeIssue s).reqs with
    | nil =>
        simp only [hb, hq, if_true]
        exact ⟨hm1, ht1⟩
    | cons w rest =>
        obtain ⟨v, st⟩ := w
        cases st with
        | none =>
            simp only [hb, hq, if_true]
            have h := transportPersists_completeEffects net
              { maybeIssue s with reqs := rest } u v ho (by simpa using hm1)
            refine ⟨h.1, ?_⟩
            rw [h.2]
            simpa using ht1
        | some b =>
            cases b <;> simp only [hb, hq, if_true] <;> exact ⟨hm1, ht1⟩
  · simp only [hb, if_false, Bool.false_eq_true]
    exact ⟨hm1, ht1⟩

theorem transportPersists_pullStep {R : Type} (net : Net R) (e : Bool) (s : Engine R) (u : Nat)
    (ho : net.outcome u = Outcome.transportErr) (hm : u ∈ s.inFlight) :
    u ∈ (pullStep net e s).state.inFlight
    ∧ issuedCount (pullStep net e s).state.trace u = issuedCount s.trace u := by
  unfold pullStep
  have h0 : u ∈ (if e then eagerComplete net s else s).inFlight
      ∧ issuedCount (if e then eagerComplete net s else s).trace u = issuedCount s.trace u := by
    cases e
    · simp only [Bool.false_eq_true, if_false]
      exact ⟨hm, trivial⟩
    · simp only [if_true]
      exact transportPersists_eagerComplete net s u ho hm
  set s0 := if e then eagerComplete net s else s with hs0
  by_cases hc : canContinue s0 = true
  · by_cases hcap : s0.limit = -1 ∨ (s0.count : Int) < s0.limit
    · have ha := transportPersists_advance net s0 u ho h0.1
      by_cases hrej : (advance net s0).2 = true
      · simp only [hc, hcap, hrej, if_true, if_pos, StepRes.state]
        exact ⟨ha.1, ha.2.trans h0.2⟩
      · simp only [hc, hcap, if_true, if_pos, Bool.not_eq_true] at *
        simp only [hrej, if_false, Bool.false_eq_true, StepRes.state]
        refine ⟨ha.1, ?_⟩
        have : issuedCount ((advance net s0).1.trace ++
            (match (advance net s0).1.buffer.head? with
             | some _ => [Ev.deliver]
             | none => [])) u = issuedCount (advance net s0).1.trace u := by
          cases (advance net s0).1.buffer.head? <;> simp
        simp only [this]
        exact ha.2.trans h0.2
    · simp only [hc, if_true, if_neg hcap, StepRes.state]
      exact h0
  · simp only [if_neg hc, StepRes.state]
    exact h0

theorem transportPersists_run {R : Type} (net : Net R) (sched : Nat → Bool) (u : Nat)
    (ho : net.outcome u = Outcome.transportErr) :
    ∀ (fuel k : Nat) (s : Engine R) (acc : List R), u ∈ s.inFlight →
      u ∈ (run net sched fuel k s acc).state.inFlight
      ∧ issuedCount (run net sched fuel k s acc).state.trace u = issuedCount s.trace u := by
  intro fuel
  induction fuel with
  | zero =>
      intro k s acc hm
      simp [run, RunResult.state]
      exact hm
  | succ n ih =>
      intro k s acc hm
      have hp := transportPersists_pullStep net (sched k) s u ho hm
      unfold run
      cases hps : pullStep net (sched k) s with
      | next s' r =>
          rw [hps] at hp
          simp only [StepRes.state] at hp
          have h2 := ih (k + 1) s' (acc ++ r.toList) hp.1
          exact ⟨h2.1, h2.2.trans hp.2⟩
      | stopFalse s' =>
          rw [hps] at hp
          simpa [RunResult.state] using hp
      | stopMore s' =>
          rw [hps] at hp
          simpa [RunResult.state] using hp
      | failedStep s' =>
          rw [hps] at hp
          simpa [RunResult.state] using hp

/-- C2 (amended): when the fetch of a URL rejects at the transport, the
pull that awaits it fails the `consume` call, but the URL remains in the
in-flight set (the callback that would delete it never runs); and because
issuance is guarded by the in-flight check, any later `consume` — with any
schedule, any fuel, and after any `addMore` — keeps the URL in flight and
never issues a fetch for it again. -/
theorem c2_amended {R : Type} (net : Net R) (u : Nat) (s : Engine R) (k fuel : Nat)
    (acc : List R) (m : Int) (sched2 : Nat → Bool) (fuel2 k2 : Nat) (acc2 : List R)
    (hout : net.outcome u = Outcome.transportErr)
    (hlink : s.link = some u) (hbuf : s.buffer = []) (hreqs : s.reqs = [(u, none)])
    (hmem : u ∈ s.inFlight) (hcap : s.limit = -1 ∨ (s.count : Int) < s.limit) :
    run net lazySched (fuel + 1) k s acc
      = RunResult.failedRun { s with reqs := [], trace := s.trace ++ [Ev.completeFail u] } acc
    ∧ u ∈ (run net sched2 fuel2 k2
        (engineAddMore { s with reqs := [], trace := s.trace ++ [Ev.completeFail u] } m)
        acc2).state.inFlight
    ∧ issuedCount (run net sched2 fuel2 k2
        (engineAddMore { s with reqs := [], trace := s.trace ++ [Ev.completeFail u] } m)
        acc2).state.trace u = issuedCount s.trace u := by
  have hfne : ¬ s.inFlight.isEmpty = true := by
    cases hf : s.inFlight with
    | nil => rw [hf] at hmem; cases hmem
    | cons a l => simp
  have hcan : canContinue s = true := by
    simp [canContinue, hfne]
  have hg : ¬ (u ∉ s.inFlight ∧ (s.limit = -1 ∨ (s.total : Int) < s.limit)) := by
    intro h
    exact h.1 hmem
  have hadv : advance net s
      = ({ s with reqs := [], trace := s.trace ++ [Ev.completeFail u] }, true) := by
    simp [advance, maybeIssue, hlink, hg, hbuf, hreqs, completeEffects, hout]
  have hstep : pullStep net false s
      = StepRes.failedStep { s with reqs := [], trace := s.trace ++ [Ev.completeFail u] } := by
    simp [pullStep, hcan, hcap, hadv]
  have hrun1 : run net lazySched (fuel + 1) k s acc
      = RunResult.failedRun { s with reqs := [], trace := s.trace ++ [Ev.completeFail u] } acc := by
    have hl : lazySched k = false := rfl
    simp [run, hl, hstep]
  refine ⟨hrun1, ?_, ?_⟩
  all_goals {
    have hmem2 : u ∈ (engineAddMore
        { s with reqs := [], trace := s.trace ++ [Ev.completeFail u] } m).inFlight := by
      unfold engineAddMore
      split <;> exact hmem
    have hpers := transportPersists_run net sched2 u hout fuel2 k2
      (engineAddMore { s with reqs := [], trace := s.trace ++ [Ev.completeFail u] } m)
      acc2 hmem2
    first
      | exact hpers.1
      | {
          have htr : (engineAddMore
              { s with reqs := [], trace := s.trace ++ [Ev.completeFail u] } m).trace
              = s.trace ++ [Ev.completeFail u] := by
            unfold engineAddMore
            split <;> rfl
          rw [hpers.2, htr]
          simp
        }
  }

/-- Witness for C2 (amended) on a single-page chain whose transport always
rejects: the first consume fails, URL 0 stays in flight, and a retry after
addMore(5) issues nothing new. -/
theorem c2_amended_witness :
    run netTransportFail lazySched 3 0 (initEngine (-1)) []
      = RunResult.failedRun { (initEngine (-1) : Engine Nat) with reqs := [], trace := (initEngine (-1) : Engine Nat).trace ++ [Ev.completeFail 0] } []
    ∧ 0 ∈ (run netTransportFail lazySched 4 0 (engineAddMore { (initEngine (-1) : Engine Nat) with reqs := [], trace := (initEngine (-1) : Engine Nat).trace ++ [Ev.completeFail 0] } 5) []).state.inFlight
    ∧ issuedCount (run netTransportFail lazySched 4 0 (engineAddMore { (initEngine (-1) : Engine Nat) with reqs := [], trace := (initEngine (-1) : Engine Nat).trace ++ [Ev.completeFail 0] } 5) []).state.trace 0 = issuedCount (initEngine (-1) : Engine Nat).trace 0 :=
  c2_amended netTransportFail 0 (initEngine (-1)) 0 2 [] 5 lazySched 4 0 []
    (by decide) (by decide) (by decide) (by decide) (by decide) (Or.inl (by decide))

/- Read-ahead bound under the demand-driven schedule. -/

theorem cumLen_zero {R : Type} (chain : List (List R)) : cumLen chain 0 = 0 := by
  simp [cumLen]

theorem cumLen_succ {R : Type} (chain : List (List R)) :
    ∀ u, cumLen chain (u + 1) = cumLen chain u + (chain.getD u []).length := by
  induction chain with
  | nil => intro u; simp [cumLen]
  | cons p rest ih =>
      intro u
      cases u with
      | zero => simp [cumLen, List.take_succ_cons]
      | succ u' =>
          have h := ih u'
          simp [cumLen, List.take_succ_cons] at h ⊢
          omega

theorem cumLen_le_currentPage {R : Type} (chain : List (List R)) :
    ∀ (c d : Nat), c ≤ chain.length → cumLen chain c ≤ d → c ≤ currentPage chain d := by
  induction chain with
  | nil =>
      intro c d hc _
      simp at hc
      omega
  | cons p rest ih =>
      intro c d hc hcum
      cases c with
      | zero => omega
      | succ c' =>
          have h1 : cumLen (p :: rest) (c' + 1) = p.length + cumLen rest c' := by
            simp [cumLen, List.take_succ_cons]
          rw [h1] at hcum
          have hd : ¬ d < p.length := by omega
          simp only [currentPage, if_neg hd]
          have := ih c' (d - p.length) (by simpa using hc) (by omega)
          omega

theorem readAhead_nil {R : Type} (chain : List (List R)) : ReadAhead chain [] := by
  intro n u hn
  simp at hn

theorem readAhead_append_no_issue {R : Type} (chain : List (List R)) (t : List Ev) (e : Ev)
    (ht : ReadAhead chain t) (he : ∀ u, e ≠ Ev.issue u) : ReadAhead chain (t ++ [e]) := by
  intro n u hn
  by_cases hlen : n < t.length
  · rw [List.getElem?_append_left hlen] at hn
    rw [List.take_append_of_le_length (le_of_lt hlen)]
    exact ht n u hn
  · rw [List.getElem?_append_right (by omega)] at hn
    rcases Nat.eq_zero_or_pos (n - t.length) with h0 | h0
    · rw [h0] at hn
      simp at hn
      exact absurd hn (he u)
    · have : ([e] : List Ev)[n - t.length]? = none := by
        apply List.getElem?_eq_none
        simp only [List.length_singleton]
        omega
      rw [this] at hn
      cases hn
  
theorem readAhead_append_issue {R : Type} (chain : List (List R)) (t : List Ev) (u : Nat)
    (ht : ReadAhead chain t) (hu : u ≤ currentPage chain (deliverCount t) + 1) :
    ReadAhead chain (t ++ [Ev.issue u]) := by
  intro n v hn
  by_cases hlen : n < t.length
  · rw [List.getElem?_append_left hlen] at hn
    rw [List.take_append_of_le_length (le_of_lt hlen)]
    exact ht n v hn
  · rw [List.getElem?_append_right (by omega)] at hn
    rcases Nat.eq_zero_or_pos (n - t.length) with h0 | h0
    · rw [h0] at hn
      have hv : v = u := by
        have := Option.some.inj hn
        cases this
        rfl
      subst hv
      have hnt : n = t.length := by omega
      subst hnt
      rw [List.take_append_of_le_length (le_refl _), List.take_of_length_le (le_refl _)]
      exact hu
    · have : ([Ev.issue u] : List Ev)[n - t.length]? = none := by
        apply List.getElem?_eq_none
        simp only [List.length_singleton]
        omega
      rw [this] at hn
      cases hn

theorem invRead_maybeIssue {R : Type} (net : Net R) (s : Engine R) (hInv : InvRead net s) :
    InvRead net (maybeIssue s) := by
  obtain ⟨hshape, hB, hC, hD, hE, hF⟩ := hInv
  unfold maybeIssue
  cases hl : s.link with
  | none => exact ⟨hshape, hB, hC, hD, hE, hF⟩
  | some u =>
      by_cases hg : u ∉ s.inFlight ∧ (s.limit = -1 ∨ (s.total : Int) < s.limit)
      · simp only [if_pos hg]
        have hreqs : s.reqs = [] := by
          rcases hshape with h | ⟨v, hv1, hv2, hv3⟩
          · exact h
          · have huv : u = v := by
              rw [hl] at hv2
              exact Option.some.inj hv2
            exact absurd (huv ▸ hv3) hg.1
        refine ⟨?_, ?_, ?_, ?_, ?_, ?_⟩
        · right
          refine ⟨u, ?_, ?_, ?_⟩
          · simp [doRequest, hreqs]
          · simp [doRequest, hl]
          · simp only [doRequest]
            exact mem_setAdd_self _ _
        · intro v hv h1
          simp only [doRequest] at hv
          exact hB v hv h1
        · intro v hv
          simp only [doRequest] at hv
          exact hC v hv
        · simp [doRequest]
          exact hD
        · intro v hv
          simp only [doRequest] at hv ⊢
          exact hE v hv
        · simp only [doRequest]
          apply readAhead_append_issue _ _ _ hF
          rcases Nat.eq_zero_or_pos u with hu0 | hu1
          · omega
          · have hulen : u < net.chain.length := hB u hl hu1
            have htot : s.total = cumLen net.chain u := hC u hl
            have hbuflen : s.buffer.length ≤ (net.chain.getD (u - 1) []).length := by
              have h := hE u hl
              rw [if_neg (by omega)] at h
              exact h
            have hstep : cumLen net.chain u
                = cumLen net.chain (u - 1) + (net.chain.getD (u - 1) []).length := by
              have h2 := cumLen_succ net.chain (u - 1)
              rw [Nat.sub_add_cancel hu1] at h2
              exact h2
            have hd : cumLen net.chain (u - 1) ≤ deliverCount s.trace := by
              omega
            have := cumLen_le_currentPage net.chain (u - 1) (deliverCount s.trace)
              (by omega) hd
            omega
      · simp only [if_neg hg]
        exact ⟨hshape, hB, hC, hD, hE, hF⟩

theorem invRead_completeOk {R : Type} (net : Net R) (s : Engine R) (u : Nat)
    (hInv : InvRead net s) (hbuf : s.buffer = []) (hreqs : s.reqs = [(u, none)])
    (hok : net.outcome u = Outcome.ok) :
    InvRead net (completeEffects net { s with reqs := ([] : List (Nat × Option Bool)) } u) := by
  obtain ⟨hshape, hB, hC, hD, hE, hF⟩ := hInv
  have hlink : s.link = some u := by
    rcases hshape with h | ⟨v, hv1, hv2, hv3⟩
    · rw [hreqs] at h
      cases h
    · have heq : ([(u, (none : Option Bool))] : List (Nat × Option Bool)) = [(v, none)] := by
        rw [← hreqs, hv1]
      simp at heq
      rw [hv2, heq]
  have htot : s.total = cumLen net.chain u := hC u hlink
  refine ⟨?_, ?_, ?_, ?_, ?_, ?_⟩
  · left
    simp [completeEffects, hok]
  · intro v hv h1
    simp only [completeEffects, hok, nextLinkOf] at hv
    by_cases hlt : u + 1 < net.chain.length
    · rw [if_pos hlt] at hv
      have : u + 1 = v := Option.some.inj hv
      omega
    · rw [if_neg hlt] at hv
      cases hv
  · intro v hv
    simp only [completeEffects, hok, nextLinkOf] at hv ⊢
    by_cases hlt : u + 1 < net.chain.length
    · rw [if_pos hlt] at hv
      have hv' : u + 1 = v := Option.some.inj hv
      rw [← hv']
      rw [cumLen_succ net.chain u]
      omega
    · rw [if_neg hlt] at hv
      cases hv
  · simp only [completeEffects, hok]
    simp [hbuf]
    have hd : s.total = deliverCount s.trace := by
      rw [hD, hbuf]
      simp
    omega
  · intro v hv
    simp only [completeEffects, hok, nextLinkOf] at hv ⊢
    by_cases hlt : u + 1 < net.chain.length
    · rw [if_pos hlt] at hv
      have hv' : u + 1 = v := Option.some.inj hv
      rw [← hv']
      simp [hbuf]
    · rw [if_neg hlt] at hv
      cases hv
  · simp only [completeEffects, hok]
    exact readAhead_append_no_issue _ _ _ hF (by intro w h; cases h)

theorem invRead_deliverUpdate {R : Type} (net : Net R) (s : Engine R) (hInv : InvRead net s)
    (c : Nat) :
    InvRead net { s with buffer := s.buffer.tail, count := c, trace := s.trace ++ (match s.buffer.head? with | some _ => [Ev.deliver] | none => []) } := by
  obtain ⟨hshape, hB, hC, hD, hE, hF⟩ := hInv
  cases hb : s.buffer with
  | nil =>
      refine ⟨?_, ?_, ?_, ?_, ?_, ?_⟩
      · rcases hshape with h | ⟨v, hv1, hv2, hv3⟩
        · left; exact h
        · right; exact ⟨v, hv1, hv2, hv3⟩
      · intro v hv h1
        exact hB v hv h1
      · intro v hv
        exact hC v hv
      · simp only [List.head?_nil, List.tail_nil]
        simp
        rw [hD, hb]
        simp
      · intro v hv
        simp
      · simp only [List.head?_nil]
        simpa using hF
  | cons r bl =>
      refine ⟨?_, ?_, ?_, ?_, ?_, ?_⟩
      · rcases hshape with h | ⟨v, hv1, hv2, hv3⟩
        · left; exact h
        · right; exact ⟨v, hv1, hv2, hv3⟩
      · intro v hv h1
        exact hB v hv h1
      · intro v hv
        exact hC v hv
      · simp only [List.head?_cons, List.tail_cons]
        simp
        rw [hD, hb]
        simp
        omega
      · intro v hv
        have h2 := hE v hv
        rw [hb] at h2
        simp only [List.tail_cons]
        simp at h2 ⊢
        omega
      · simp only [List.head?_cons]
        exact readAhead_append_no_issue _ _ _ hF (by intro w h; cases h)

theorem advance_eq_buffer_nonempty {R : Type} (net : Net R) (s : Engine R)
    (hb : (maybeIssue s).buffer.isEmpty = false) :
    advance net s = (maybeIssue s, false) := by
  unfold advance
  simp [hb]

theorem advance_eq_no_reqs {R : Type} (net : Net R) (s : Engine R)
    (hb : (maybeIssue s).buffer.isEmpty = true) (hq : (maybeIssue s).reqs = []) :
    advance net s = (maybeIssue s, false) := by
  unfold advance
  simp [hb, hq]

theorem advance_eq_pending {R : Type} (net : Net R) (s : Engine R) (v : Nat)
    (rest : List (Nat × Option Bool))
    (hb : (maybeIssue s).buffer.isEmpty = true)
    (hq : (maybeIssue s).reqs = (v, none) :: rest) :
    advance net s = (completeEffects net { maybeIssue s with reqs := rest } v,
      decide (net.outcome v ≠ Outcome.ok)) := by
  unfold advance
  simp [hb, hq]

theorem pullStep_lazy_eq {R : Type} (net : Net R) (s : Engine R) :
    pullStep net false s =
      if canContinue s then
        if s.limit = -1 ∨ (s.count : Int) < s.limit then
          if (advance net s).2 then StepRes.failedStep (advance net s).1
          else StepRes.next { (advance net s).1 with buffer := (advance net s).1.buffer.tail, count := (advance net s).1.count + 1, trace := (advance net s).1.trace ++ (match (advance net s).1.buffer.head? with | some _ => [Ev.deliver] | none => []) } (advance net s).1.buffer.head?
        else StepRes.stopMore s
      else StepRes.stopFalse s := rfl

theorem invRead_pullStep_lazy {R : Type} (net : Net R) (s : Engine R) (hInv : InvRead net s) :
    ReadAhead net.chain (pullStep net false s).state.trace
    ∧ ∀ s' r, pullStep net false s = StepRes.next s' r → InvRead net s' := by
  have hRA : ∀ t : Engine R, InvRead net t → ReadAhead net.chain t.trace := fun t h => h.2.2.2.2.2
  rw [pullStep_lazy_eq]
  by_cases hc : canContinue s = true
  · simp only [if_pos hc]
    by_cases hcap : s.limit = -1 ∨ (s.count : Int) < s.limit
    · simp only [if_pos hcap]
      have hA : InvRead net (maybeIssue s) := invRead_maybeIssue net s hInv
      by_cases hb : (maybeIssue s).buffer.isEmpty
      · cases hq : (maybeIssue s).reqs with
        | nil =>
            rw [advance_eq_no_reqs net s hb hq]
            simp only [StepRes.state, Bool.false_eq_true, if_false]
            have hd := invRead_deliverUpdate net (maybeIssue s) hA ((maybeIssue s).count + 1)
            refine ⟨hRA _ hd, ?_⟩
            intro s' r h
            have := (StepRes.next.inj h).1
            rw [← this]
            exact hd
        | cons w rest =>
            obtain ⟨v, st⟩ := w
            cases st with
            | none =>
                have hrest : rest = [] ∧ (maybeIssue s).link = some v := by
                  rcases hA.1 with h | ⟨w', hw1, hw2, hw3⟩
                  · rw [hq] at h; cases h
                  · rw [hq] at hw1
                    have h1 := List.cons.inj hw1
                    have h2 : v = w' := congrArg Prod.fst h1.1
                    exact ⟨h1.2, h2 ▸ hw2⟩
                have hbufeq : (maybeIssue s).buffer = [] := by
                  rwa [List.isEmpty_iff] at hb
                rw [advance_eq_pending net s v rest hb hq]
                cases ho : net.outcome v with
                | ok =>
                    have hC2 : InvRead net (completeEffects net { maybeIssue s with reqs := ([] : List (Nat × Option Bool)) } v) :=
                      invRead_completeOk net (maybeIssue s) v hA hbufeq
                        (by rw [hq, hrest.1]) ho
                    rw [hrest.1] at *
                    simp only [ho]
                    simp only [ne_eq, not_true_eq_false, decide_False, Bool.false_eq_true,
                      if_false, StepRes.state]
                    have hd := invRead_deliverUpdate net _ hC2
                      ((completeEffects net { maybeIssue s with reqs := ([] : List (Nat × Option Bool)) } v).count + 1)
                    refine ⟨hRA _ hd, ?_⟩
                    intro s' r h
                    have := (StepRes.next.inj h).1
                    rw [← this]
                    exact hd
                | transportErr =>
                    simp only [ho]
                    simp only [ne_eq, decide_not, StepRes.state]
                    simp only [show (decide (Outcome.transportErr = Outcome.ok)) = false from rfl,
                      Bool.not_false, if_true]
                    refine ⟨?_, ?_⟩
                    · simp only [completeEffects, ho, StepRes.state]
                      exact readAhead_append_no_issue _ _ _ (hRA _ hA) (by intro w h; cases h)
                    · intro s' r h
                      cases h
                | docErr =>
                    simp only [ho]
                    simp only [ne_eq, decide_not, StepRes.state]
                    simp only [show (decide (Outcome.docErr = Outcome.ok)) = false from rfl,
                      Bool.not_false, if_true]
                    refine ⟨?_, ?_⟩
                    · simp only [completeEffects, ho, StepRes.state]
                      exact readAhead_append_no_issue _ _ _ (hRA _ hA) (by intro w h; cases h)
                    · intro s' r h
                      cases h
            | some b =>
                exfalso
                rcases hA.1 with h | ⟨w', hw1, hw2, hw3⟩
                · rw [hq] at h; cases h
                · rw [hq] at hw1
                  have h1 := List.cons.inj hw1
                  have : (some b : Option Bool) = none := congrArg Prod.snd h1.1
                  cases this
      · rw [advance_eq_buffer_nonempty net s (by simpa using hb)]
        simp only [StepRes.state, Bool.false_eq_true, if_false]
        have hd := invRead_deliverUpdate net (maybeIssue s) hA ((maybeIssue s).count + 1)
        refine ⟨hRA _ hd, ?_⟩
        intro s' r h
        have := (StepRes.next.inj h).1
        rw [← this]
        exact hd
    · simp only [if_neg hcap]
      refine ⟨hRA _ hInv, ?_⟩
      intro s' r h
      cases h
  · simp only [if_neg hc]
    refine ⟨hRA _ hInv, ?_⟩
    intro s' r h
    cases h

theorem readAhead_run_lazy {R : Type} (net : Net R) :
    ∀ (fuel k : Nat) (s : Engine R) (acc : List R), InvRead net s →
      ReadAhead net.chain (run net lazySched fuel k s acc).state.trace := by
  intro fuel
  induction fuel with
  | zero =>
      intro k s acc h
      simpa [run, RunResult.state] using h.2.2.2.2.2
  | succ n ih =>
      intro k s acc h
      have hl : lazySched k = false := rfl
      have hp := invRead_pullStep_lazy net s h
      unfold run
      rw [hl]
      cases hps : pullStep net false s with
      | next s' r =>
          exact ih (k + 1) s' (acc ++ r.toList) (hp.2 s' r hps)
      | stopFalse s' =>
          have := hp.1
          rw [hps] at this
          simpa [RunResult.state, StepRes.state] using this
      | stopMore s' =>
          have := hp.1
          rw [hps] at this
          simpa [RunResult.state, StepRes.state] using this
      | failedStep s' =>
          have := hp.1
          rw [hps] at this
          simpa [RunResult.state, StepRes.state] using this

theorem invRead_init {R : Type} (net : Net R) (limit : Int) :
    InvRead net (initEngine (R := R) limit) := by
  unfold initEngine
  by_cases h : limit = -1 ∨ (0 : Int) < limit
  · simp only [if_pos h]
    refine ⟨?_, ?_, ?_, ?_, ?_, ?_⟩
    · right
      refine ⟨0, ?_, ?_, ?_⟩
      · simp [doRequest]
      · simp [doRequest]
      · simp [doRequest]
        exact mem_setAdd_self _ _
    · intro v hv h1
      simp [doRequest] at hv
      omega
    · intro v hv
      simp [doRequest] at hv
      simp [← hv, cumLen_zero, doRequest]
    · simp [doRequest]
    · intro v hv
      simp [doRequest] at hv
      simp [doRequest, ← hv]
    · simp only [doRequest]
      simp
      intro n u hn
      rcases Nat.eq_zero_or_pos n with h0 | h0
      · subst h0
        simp at hn
        omega
      · have : ([Ev.issue 0] : List Ev)[n]? = none := by
          apply List.getElem?_eq_none
          simp only [List.length_singleton]
          omega
        rw [this] at hn
        cases hn
  · simp only [if_neg h]
    refine ⟨?_, ?_, ?_, ?_, ?_, ?_⟩
    · left; rfl
    · intro v hv h1
      simp at hv
      omega
    · intro v hv
      simp at hv
      simp [← hv, cumLen_zero]
    · simp
    · intro v hv
      simp at hv
      simp [← hv]
    · exact readAhead_nil _

/-- C8 (amended): under the demand-driven schedule, where every page fetch
completes only when a pull awaits it, the engine observes the one-page
read-ahead bound: whenever a fetch for page `u` is issued, `u` is at most
one page beyond the page currently being drained (the page holding the
next undelivered element).  This holds for every chain, cap, fetch-outcome
assignment and fuel. -/
theorem c8_amended {R : Type} (net : Net R) (limit : Int) (fuel : Nat) :
    ReadAhead net.chain
      (run net lazySched fuel 0 (initEngine limit) []).state.trace :=
  readAhead_run_lazy net fuel 0 (initEngine limit) [] (invRead_init net limit)

/- Demand-driven, failure-free runs: the cap law. -/

theorem run_succ {R : Type} (net : Net R) (sched : Nat → Bool) (fuel k : Nat)
    (s : Engine R) (acc : List R) :
    run net sched (fuel + 1) k s acc =
      match pullStep net (sched k) s with
      | StepRes.next s' r => run net sched fuel (k + 1) s' (acc ++ r.toList)
      | StepRes.stopFalse s' => RunResult.done s' acc false
      | StepRes.stopMore s' => RunResult.done s' acc true
      | StepRes.failedStep s' => RunResult.failedRun s' acc := rfl

theorem maybeIssue_buffer {R : Type} (s : Engine R) : (maybeIssue s).buffer = s.buffer := by
  unfold maybeIssue
  cases hl : s.link with
  | none => rfl
  | some u =>
      by_cases hg : u ∉ s.inFlight ∧ (s.limit = -1 ∨ (s.total : Int) < s.limit)
      · simp [if_pos hg, doRequest]
      · simp [if_neg hg]

theorem maybeIssue_link {R : Type} (s : Engine R) : (maybeIssue s).link = s.link := by
  unfold maybeIssue
  cases hl : s.link with
  | none => exact hl
  | some u =>
      by_cases hg : u ∉ s.inFlight ∧ (s.limit = -1 ∨ (s.total : Int) < s.limit)
      · simp [if_pos hg, doRequest, hl]
      · simp [if_neg hg, hl]

theorem maybeIssue_total {R : Type} (s : Engine R) : (maybeIssue s).total = s.total := by
  unfold maybeIssue
  cases hl : s.link with
  | none => rfl
  | some u =>
      by_cases hg : u ∉ s.inFlight ∧ (s.limit = -1 ∨ (s.total : Int) < s.limit)
      · simp [if_pos hg, doRequest]
      · simp [if_neg hg]

theorem maybeIssue_count {R : Type} (s : Engine R) : (maybeIssue s).count = s.count := by
  unfold maybeIssue
  cases hl : s.link with
  | none => rfl
  | some u =>
      by_cases hg : u ∉ s.inFlight ∧ (s.limit = -1 ∨ (s.total : Int) < s.limit)
      · simp [if_pos hg, doRequest]
      · simp [if_neg hg]

theorem maybeIssue_limit {R : Type} (s : Engine R) : (maybeIssue s).limit = s.limit := by
  unfold maybeIssue
  cases hl : s.link with
  | none => rfl
  | some u =>
      by_cases hg : u ∉ s.inFlight ∧ (s.limit = -1 ∨ (s.total : Int) < s.limit)
      · simp [if_pos hg, doRequest]
      · simp [if_neg hg]

theorem availOf_congr {R : Type} (net : Net R) (s t : Engine R)
    (hb : t.buffer = s.buffer) (hl : t.link = s.link) :
    availOf net t = availOf net s := by
  simp [availOf, hb, hl]

theorem invLazy_maybeIssue {R : Type} (net : Net R) (n : Nat) (s : Engine R)
    (hInv : InvLazy net n s) : InvLazy net n (maybeIssue s) := by
  obtain ⟨hlim, hcnt, htot, hshape, hlink⟩ := hInv
  unfold maybeIssue
  cases hl : s.link with
  | none => exact ⟨hlim, hcnt, htot, hshape, hlink⟩
  | some u =>
      by_cases hg : u ∉ s.inFlight ∧ (s.limit = -1 ∨ (s.total : Int) < s.limit)
      · simp only [if_pos hg]
        have hempty : s.reqs = [] ∧ s.inFlight = [] := by
          rcases hshape with h | ⟨v, hv1, hv2, hv3⟩
          · exact h
          · have : u = v := by
              rw [hl] at hv3
              exact Option.some.inj hv3
            rw [hv2] at hg
            exact absurd (by simp [← this]) hg.1
        refine ⟨hlim, hcnt, htot, ?_, ?_⟩
        · right
          refine ⟨u, ?_, ?_, ?_⟩
          · simp [doRequest, hempty.1]
          · simp [doRequest, hempty.2, setAdd]
          · simp [doRequest, hl]
        · intro v hv
          simp only [doRequest] at hv
          exact hlink v hv
      · simp only [if_neg hg]
        exact ⟨hlim, hcnt, htot, hshape, hlink⟩

theorem page_ne_nil {R : Type} (net : Net R) (u : Nat)
    (hpages : ∀ p ∈ net.chain, p ≠ []) (hu : u < net.chain.length) :
    net.chain.getD u [] ≠ [] := by
  rw [List.getD_eq_getElem _ _ hu]
  exact hpages _ (List.getElem_mem hu)

theorem flatten_drop_succ {R : Type} (chain : List (List R)) (u : Nat)
    (hu : u < chain.length) :
    (chain.drop u).flatten = chain.getD u [] ++ (chain.drop (u + 1)).flatten := by
  rw [List.drop_eq_getElem_cons hu, List.flatten_cons, List.getD_eq_getElem _ _ hu]

theorem canContinue_eq_false {R : Type} {s : Engine R} (h : ¬ canContinue s = true) :
    s.buffer = [] ∧ s.inFlight = [] ∧ s.link = none := by
  simp [canContinue] at h
  exact ⟨h.1.1, h.1.2, h.2⟩

theorem link_some_of_avail {R : Type} {s : Engine R}
    (hshape : s.reqs = [] ∧ s.inFlight = []
      ∨ ∃ u, s.reqs = [(u, none)] ∧ s.inFlight = [u] ∧ s.link = some u)
    (hc : canContinue s = true) (hb : s.buffer = []) : ∃ u, s.link = some u := by
  rcases hshape with ⟨hr, hf⟩ | ⟨u, h1, h2, h3⟩
  · cases hl : s.link with
    | some u => exact ⟨u, rfl⟩
    | none =>
        exfalso
        simp [canContinue, hb, hf, hl] at hc
  · exact ⟨u, h3⟩

theorem availOf_ne_of_canContinue {R : Type} (net : Net R) (n : Nat) (s : Engine R)
    (hpages : ∀ p ∈ net.chain, p ≠ [])
    (hInv : InvLazy net n s) (hc : canContinue s = true) : availOf net s ≠ [] := by
  obtain ⟨hlim, hcnt, htot, hshape, hlink⟩ := hInv
  by_cases hb : s.buffer = []
  · obtain ⟨u, hl⟩ := link_some_of_avail hshape hc hb
    have hulen := hlink u hl
    simp only [availOf, hl, hb, List.nil_append]
    rw [flatten_drop_succ _ _ hulen]
    intro hcontra
    exact page_ne_nil net u hpages hulen (List.append_eq_nil.1 hcontra).1
  · simp only [availOf]
    cases hsb : s.buffer with
    | nil => exact absurd hsb hb
    | cons a l => simp

theorem advance_lazy_good {R : Type} (net : Net R) (n : Nat) (s : Engine R)
    (hpages : ∀ p ∈ net.chain, p ≠ [])
    (hok : ∀ u, net.outcome u = Outcome.ok)
    (hInv : InvLazy net n s) (hc : canContinue s = true) (hcount : s.count < n) :
    ∃ s1, advance net s = (s1, false)
      ∧ s1.buffer ≠ []
      ∧ availOf net s1 = availOf net s
      ∧ s1.count = s.count
      ∧ InvLazy net n s1 := by
  obtain ⟨hlim, hcnt, htot, hshape, hlink⟩ := hInv
  by_cases hb : s.buffer = []
  · obtain ⟨u, hl⟩ := link_some_of_avail hshape hc hb
    have hulen : u < net.chain.length := hlink u hl
    have hmi : (maybeIssue s).reqs = [(u, none)] ∧ (maybeIssue s).buffer = []
        ∧ (maybeIssue s).link = some u ∧ (maybeIssue s).inFlight = [u]
        ∧ (maybeIssue s).total = s.total ∧ (maybeIssue s).count = s.count
        ∧ (maybeIssue s).limit = s.limit := by
      rcases hshape with ⟨hr, hf⟩ | ⟨v, h1, h2, h3⟩
      · have hg : u ∉ s.inFlight ∧ (s.limit = -1 ∨ (s.total : Int) < s.limit) := by
          constructor
          · rw [hf]
            simp
          · right
            rw [hlim, htot, hb]
            simp
            exact_mod_cast hcount
        have hmieq : maybeIssue s = doRequest s u := by
          unfold maybeIssue
          rw [hl]
          exact if_pos hg
        rw [hmieq]
        simp [doRequest, hr, hb, hl, hf, setAdd]
      · have huv : u = v := by
          rw [hl] at h3
          exact Option.some.inj h3
        subst huv
        have hg : ¬ (u ∉ s.inFlight ∧ (s.limit = -1 ∨ (s.total : Int) < s.limit)) := by
          intro hgg
          exact hgg.1 (by rw [h2]; simp)
        have hmieq : maybeIssue s = s := by
          unfold maybeIssue
          rw [hl]
          exact if_neg hg
        rw [hmieq]
        simp [h1, hb, hl, h2]
    obtain ⟨hm1, hm2, hm3, hm4, hm5, hm6, hm7⟩ := hmi
    have hadv := advance_eq_pending net s u [] (by rw [List.isEmpty_iff]; exact hm2) hm1
    rw [hok u] at hadv
    rw [show (decide (Outcome.ok ≠ Outcome.ok)) = false from rfl] at hadv
    refine ⟨completeEffects net { maybeIssue s with reqs := ([] : List (Nat × Option Bool)) } u,
      hadv, ?_, ?_, ?_, ?_⟩
    · simp only [completeEffects, hok u]
      simp only [hm2, List.nil_append]
      exact page_ne_nil net u hpages hulen
    · simp only [completeEffects, hok u]
      simp only [availOf, hm2, List.nil_append, hl, hb]
      rw [flatten_drop_succ _ _ hulen]
      unfold nextLinkOf
      by_cases hlt : u + 1 < net.chain.length
      · simp [if_pos hlt]
      · simp [if_neg hlt]
        rw [List.drop_eq_nil_of_le (by omega)]
        simp
    · simp [completeEffects, hok u, hm6]
    · refine ⟨?_, ?_, ?_, ?_, ?_⟩
      · simp [completeEffects, hok u, hm7, hlim]
      · simp [completeEffects, hok u, hm6]
        omega
      · simp [completeEffects, hok u, hm2, hm5, hm6]
        rw [htot, hb]
        simp
      · left
        constructor
        · simp [completeEffects, hok u]
        · simp [completeEffects, hok u, hm4]
      · intro v hv
        simp only [completeEffects, hok u] at hv
        unfold nextLinkOf at hv
        by_cases hlt : u + 1 < net.chain.length
        · rw [if_pos hlt] at hv
          simp at hv
          omega
        · rw [if_neg hlt] at hv
          simp at hv
  · have hbf : (maybeIssue s).buffer.isEmpty = false := by
      rw [maybeIssue_buffer]
      cases hsb : s.buffer with
      | nil => exact absurd hsb hb
      | cons a l => rfl
    refine ⟨maybeIssue s, advance_eq_buffer_nonempty net s hbf, ?_, ?_, ?_, ?_⟩
    · rw [maybeIssue_buffer]
      exact hb
    · exact availOf_congr net s (maybeIssue s) (maybeIssue_buffer s) (maybeIssue_link s)
    · exact maybeIssue_count s
    · exact invLazy_maybeIssue net n s ⟨hlim, hcnt, htot, hshape, hlink⟩

theorem consume_lazy_spec {R : Type} (net : Net R) (n : Nat)
    (hpages : ∀ p ∈ net.chain, p ≠ [])
    (hok : ∀ u, net.outcome u = Outcome.ok) :
    ∀ (fuel k : Nat) (s : Engine R) (acc : List R), InvLazy net n s → n - s.count < fuel →
      ∃ s', run net lazySched fuel k s acc
          = RunResult.done s' (acc ++ (availOf net s).take (n - s.count))
              (decide (n < s.count + (availOf net s).length))
        ∧ InvLazy net n s'
        ∧ s'.count = s.count + min (n - s.count) (availOf net s).length
        ∧ availOf net s' = (availOf net s).drop (n - s.count) := by
  intro fuel
  induction fuel with
  | zero =>
      intro k s acc hInv hfuel
      exact absurd hfuel (by omega)
  | succ m ih =>
      intro k s acc hInv hfuel
      have hInvKeep := hInv
      obtain ⟨hlim, hcnt, htot, hshape, hlink⟩ := hInv
      have hls : lazySched k = false := rfl
      rw [run_succ, hls]
      by_cases hc : canContinue s = true
      · by_cases hcount : s.count < n
        · have hcap : s.limit = -1 ∨ (s.count : Int) < s.limit := by
            right
            rw [hlim]
            exact_mod_cast hcount
          obtain ⟨s1, hadv, hb1, havail1, hcount1, hInv1⟩ :=
            advance_lazy_good net n s hpages hok hInvKeep hc hcount
          obtain ⟨r, bl, hbl⟩ : ∃ r bl, s1.buffer = r :: bl := by
            cases hsb : s1.buffer with
            | nil => exact absurd hsb hb1
            | cons a l => exact ⟨a, l, rfl⟩
          have hstep : pullStep net false s
              = StepRes.next { s1 with buffer := bl, count := s1.count + 1, trace := s1.trace ++ [Ev.deliver] } (some r) := by
            rw [pullStep_lazy_eq, hadv]
            simp [hc, hcap, hbl]
          obtain ⟨hlim1, hcnt1, htot1, hshape1, hlink1⟩ := hInv1
          have hInvS : InvLazy net n { s1 with buffer := bl, count := s1.count + 1, trace := s1.trace ++ [Ev.deliver] } := by
            refine ⟨hlim1, ?_, ?_, ?_, ?_⟩
            · simp
              omega
            · simp
              rw [hbl] at htot1
              simp at htot1
              omega
            · rcases hshape1 with ⟨h1, h2⟩ | ⟨u, h1, h2, h3⟩
              · left
                exact ⟨h1, h2⟩
              · right
                exact ⟨u, h1, h2, h3⟩
            · intro u hu
              exact hlink1 u hu
          have havail_s1 : availOf net s1
              = r :: availOf net { s1 with buffer := bl, count := s1.count + 1, trace := s1.trace ++ [Ev.deliver] } := by
            simp [availOf, hbl]
          have hfuel2 : n - ({ s1 with buffer := bl, count := s1.count + 1, trace := s1.trace ++ [Ev.deliver] } : Engine R).count < m := by
            simp
            omega
          obtain ⟨s', hrun, hInv', hcount', havail'⟩ := ih (k + 1)
            { s1 with buffer := bl, count := s1.count + 1, trace := s1.trace ++ [Ev.deliver] }
            (acc ++ [r]) hInvS hfuel2
          simp only [hstep]
          rw [show (some r).toList = [r] from rfl]
          rw [hrun]
          have hSc : ({ s1 with buffer := bl, count := s1.count + 1, trace := s1.trace ++ [Ev.deliver] } : Engine R).count = s.count + 1 := by
            simp [hcount1]
          have hlen : (availOf net s).length
              = (availOf net { s1 with buffer := bl, count := s1.count + 1, trace := s1.trace ++ [Ev.deliver] }).length + 1 := by
            rw [← havail1, havail_s1]
            simp
          refine ⟨s', ?_, hInv', ?_, ?_⟩
          · congr 1
            · rw [List.append_assoc]
              congr 1
              rw [← havail1, havail_s1]
              have hnc : n - s.count = (n - (s.count + 1)) + 1 := by omega
              rw [hnc, List.take_succ_cons, hSc]
              simp
            · rw [decide_eq_decide, hSc, hlen]
              omega
          · rw [hcount', hSc, hlen]
            omega
          · rw [havail', ← havail1, havail_s1, hSc]
            have hnc : n - s.count = (n - (s.count + 1)) + 1 := by omega
            rw [hnc, List.drop_succ_cons]
        · have hceq : s.count = n := by omega
          have hcapF : ¬ (s.limit = -1 ∨ (s.count : Int) < s.limit) := by
            rw [hlim, hceq]
            intro h
            rcases h with h | h <;> omega
          have hstep : pullStep net false s = StepRes.stopMore s := by
            rw [pullStep_lazy_eq]
            simp [hc, hcapF]
          simp only [hstep]
          have havne : availOf net s ≠ [] :=
            availOf_ne_of_canContinue net n s hpages hInvKeep hc
          have hlen : 0 < (availOf net s).length := List.length_pos.2 havne
          refine ⟨s, ?_, hInvKeep, ?_, ?_⟩
          · rw [hceq]
            simp only [Nat.sub_self, List.take_zero, List.append_nil]
            have hdec : (n < n + (availOf net s).length) := by omega
            simp [hdec]
          · rw [hceq]
            simp
          · rw [hceq]
            simp
      · obtain ⟨hb0, hf0, hl0⟩ := canContinue_eq_false hc
        have havail0 : availOf net s = [] := by
          simp [availOf, hb0, hl0]
        have hstep : pullStep net false s = StepRes.stopFalse s := by
          rw [pullStep_lazy_eq]
          simp [hc]
        simp only [hstep]
        refine ⟨s, ?_, hInvKeep, ?_, ?_⟩
        · rw [havail0]
          simp only [List.take_nil, List.append_nil, List.length_nil, Nat.add_zero]
          have hdec : ¬ (n < s.count) := by omega
          simp [hdec]
        · rw [havail0]
          simp
        · rw [havail0]
          simp

theorem initEngine_count {R : Type} (limit : Int) : (initEngine (R := R) limit).count = 0 := by
  unfold initEngine
  split <;> rfl

theorem availOf_init {R : Type} (net : Net R) (limit : Int) :
    availOf net (initEngine limit) = net.chain.flatten := by
  unfold initEngine
  split <;> simp [availOf, doRequest]

theorem invLazy_init {R : Type} (net : Net R) (n : Nat) (hne : net.chain ≠ []) :
    InvLazy net n (initEngine (R := R) (n : Int)) := by
  have hlen : 0 < net.chain.length := List.length_pos.2 hne
  unfold initEngine
  by_cases h : (n : Int) = -1 ∨ (0 : Int) < (n : Int)
  · simp only [if_pos h]
    refine ⟨rfl, Nat.zero_le n, rfl, ?_, ?_⟩
    · right
      exact ⟨0, rfl, rfl, rfl⟩
    · intro u hu
      have h0 : some (0 : Nat) = some u := hu
      have := Option.some.inj h0
      omega
  · simp only [if_neg h]
    refine ⟨rfl, Nat.zero_le n, rfl, Or.inl ⟨rfl, rfl⟩, ?_⟩
    intro u hu
    have h0 : some (0 : Nat) = some u := hu
    have := Option.some.inj h0
    omega

/-- C4 (amended): under the demand-driven schedule (each fetch completes
only when a pull awaits it), over a chain of non-empty pages with only
successful fetches, `consume` with a finite cap `n` delivers exactly the
first `min n totalAvailable` resources in page order and resolves to
`false` exactly when `totalAvailable ≤ n` (otherwise to `addMore`). -/
theorem c4_amended {R : Type} (net : Net R) (n fuel : Nat)
    (hne : net.chain ≠ []) (hpages : ∀ p ∈ net.chain, p ≠ [])
    (hok : ∀ u, net.outcome u = Outcome.ok) (hfuel : n < fuel) :
    (run net lazySched fuel 0 (initEngine (n : Int)) []).delivered
        = net.chain.flatten.take n
    ∧ (run net lazySched fuel 0 (initEngine (n : Int)) []).delivered.length
        = min n net.chain.flatten.length
    ∧ (run net lazySched fuel 0 (initEngine (n : Int)) []).moreFlag
        = some (decide (n < net.chain.flatten.length)) := by
  obtain ⟨s', hrun, hInv', hcount', havail'⟩ :=
    consume_lazy_spec net n hpages hok fuel 0 (initEngine (n : Int)) []
      (invLazy_init net n hne) (by rw [initEngine_count]; omega)
  rw [availOf_init, initEngine_count] at hrun
  rw [hrun]
  simp [RunResult.delivered, RunResult.moreFlag, List.length_take]

/-- Witness for C4 (amended): the three-page chain of two resources per
page with cap 4 delivers its first four resources and resolves to
`addMore`. -/
theorem c4_amended_witness :
    (run netThreePages lazySched 6 0 (initEngine ((4 : Nat) : Int)) []).delivered
        = netThreePages.chain.flatten.take 4
    ∧ (run netThreePages lazySched 6 0 (initEngine ((4 : Nat) : Int)) []).delivered.length
        = min 4 netThreePages.chain.flatten.length
    ∧ (run netThreePages lazySched 6 0 (initEngine ((4 : Nat) : Int)) []).moreFlag
        = some (decide (4 < netThreePages.chain.flatten.length)) :=
  c4_amended netThreePages 4 6 (by decide) (by decide) (fun u => rfl) (by omega)

/-- C3 (amended): `addMore(n)` mutates only the stored cap, adding `n` to
it: buffers, queued requests, the in-flight set and the trace are
untouched (no fetch occurs), `addMore(-1)` removes the cap, and raising a
finite cap `a` by `b` after a cap-limited consume makes the run resumable:
the first consume delivers the first `a` resources and the resumed
consume delivers exactly the next `b` (in page order, nothing
re-fetched from scratch), under the demand-driven schedule over non-empty
pages. -/
theorem c3_amended {R : Type} (net : Net R) (a b fuel1 fuel2 : Nat)
    (hne : net.chain ≠ []) (hpages : ∀ p ∈ net.chain, p ≠ [])
    (hok : ∀ u, net.outcome u = Outcome.ok)
    (hcap : a ≤ net.chain.flatten.length)
    (hf1 : a < fuel1) (hf2 : b < fuel2) :
    (∀ (t : Engine R) (m : Int), (engineAddMore t m).buffer = t.buffer
        ∧ (engineAddMore t m).reqs = t.reqs ∧ (engineAddMore t m).trace = t.trace
        ∧ (engineAddMore t m).inFlight = t.inFlight)
    ∧ (∀ t : Engine R, (engineAddMore t (-1)).limit = -1)
    ∧ (engineAddMore (run net lazySched fuel1 0 (initEngine (a : Int)) []).state (b : Int)).limit
        = (a : Int) + (b : Int)
    ∧ (run net lazySched fuel1 0 (initEngine (a : Int)) []).delivered
        = net.chain.flatten.take a
    ∧ (run net lazySched fuel2 0
        (engineAddMore (run net lazySched fuel1 0 (initEngine (a : Int)) []).state (b : Int))
        []).delivered
        = (net.chain.flatten.drop a).take b := by
  have hgen : ∀ (t : Engine R) (m : Int), (engineAddMore t m).buffer = t.buffer
      ∧ (engineAddMore t m).reqs = t.reqs ∧ (engineAddMore t m).trace = t.trace
      ∧ (engineAddMore t m).inFlight = t.inFlight := by
    intro t m
    unfold engineAddMore
    split <;> exact ⟨rfl, rfl, rfl, rfl⟩
  have hunl : ∀ t : Engine R, (engineAddMore t (-1)).limit = -1 := by
    intro t
    unfold engineAddMore
    rw [if_pos rfl]
  obtain ⟨s1, hrun1, hInv1, hcount1, havail1⟩ :=
    consume_lazy_spec net a hpages hok fuel1 0 (initEngine (a : Int)) []
      (invLazy_init net a hne) (by rw [initEngine_count]; omega)
  rw [availOf_init, initEngine_count] at hrun1 hcount1 havail1
  have hs1c : s1.count = a := by
    rw [hcount1, Nat.sub_zero, Nat.zero_add]
    omega
  have hbm : ¬ (b : Int) = -1 := by omega
  have hs2 : engineAddMore s1 (b : Int) = { s1 with limit := s1.limit + (b : Int) } := by
    unfold engineAddMore
    rw [if_neg hbm]
  obtain ⟨hlim1, hcnt1, htot1, hshape1, hlink1⟩ := hInv1
  have hInv2 : InvLazy net (a + b) ({ s1 with limit := s1.limit + (b : Int) } : Engine R) := by
    refine ⟨?_, ?_, htot1, ?_, ?_⟩
    · have hp : ({ s1 with limit := s1.limit + (b : Int) } : Engine R).limit
          = s1.limit + (b : Int) := rfl
      rw [hp, hlim1]
      push_cast
      ring
    · have hp : ({ s1 with limit := s1.limit + (b : Int) } : Engine R).count = s1.count := rfl
      rw [hp, hs1c]
      omega
    · rcases hshape1 with ⟨h1, h2⟩ | ⟨u, h1, h2, h3⟩
      · left; exact ⟨h1, h2⟩
      · right; exact ⟨u, h1, h2, h3⟩
    · intro u hu
      exact hlink1 u hu
  have havail2 : availOf net ({ s1 with limit := s1.limit + (b : Int) } : Engine R)
      = availOf net s1 := by
    simp [availOf]
  obtain ⟨s2, hrun2, hInv2', hcount2, havail2'⟩ :=
    consume_lazy_spec net (a + b) hpages hok fuel2 0
      ({ s1 with limit := s1.limit + (b : Int) } : Engine R) [] hInv2
      (by
        have hp : ({ s1 with limit := s1.limit + (b : Int) } : Engine R).count = s1.count := rfl
        rw [hp, hs1c]
        omega)
  refine ⟨hgen, hunl, ?_, ?_, ?_⟩
  · rw [hrun1]
    simp only [RunResult.state]
    rw [hs2]
    simp [hlim1]
  · rw [hrun1]
    simp [RunResult.delivered]
  · rw [hrun1]
    simp only [RunResult.state]
    rw [hs2, hrun2]
    simp only [RunResult.delivered, List.nil_append]
    rw [havail2, havail1]
    have hp : ({ s1 with limit := s1.limit + (b : Int) } : Engine R).count = s1.count := rfl
    rw [hp, hs1c, Nat.sub_zero, Nat.add_sub_cancel_left]

/-- Witness for C3 (amended): cap 1 delivers the first resource; addMore(2)
raises the cap to 3 and the resumed consume delivers exactly the next two. -/
theorem c3_amended_witness :
    (∀ (t : Engine Nat) (m : Int), (engineAddMore t m).buffer = t.buffer
        ∧ (engineAddMore t m).reqs = t.reqs ∧ (engineAddMore t m).trace = t.trace
        ∧ (engineAddMore t m).inFlight = t.inFlight)
    ∧ (∀ t : Engine Nat, (engineAddMore t (-1)).limit = -1)
    ∧ (engineAddMore (run netThreePages lazySched 3 0 (initEngine ((1 : Nat) : Int)) []).state
        ((2 : Nat) : Int)).limit = ((1 : Nat) : Int) + ((2 : Nat) : Int)
    ∧ (run netThreePages lazySched 3 0 (initEngine ((1 : Nat) : Int)) []).delivered
        = netThreePages.chain.flatten.take 1
    ∧ (run netThreePages lazySched 3 0
        (engineAddMore (run netThreePages lazySched 3 0 (initEngine ((1 : Nat) : Int)) []).state
          ((2 : Nat) : Int)) []).delivered
        = (netThreePages.chain.flatten.drop 1).take 2 :=
  c3_amended netThreePages 1 2 3 3 (by decide) (by decide) (fun u => rfl) (by decide)
    (by omega) (by omega)
